/-
  Verification of the Project Model & Dependency Resolution Engine
  (compose-go, `types/project.go`).

  The Go source is embedded shallowly:
  * Go maps (`Services`, `DependsOn`, environment mappings) are modelled as
    association lists with unique keys (`AList`); Go map iteration order is
    nondeterministic, the model fixes the list order as one admissible order.
  * Fallible operations return `Except String`.
  * `deepCopy` (library `copystructure.Copy`) is a value copy; in a pure
    embedding a value copy is the identity.  Aliasing is not representable.
  * Types that `project.go` uses but whose Go definitions live outside the
    supplied sources (`ServiceConfig`, `Mapping`, `MappingWithEquals`,
    `EnvFile`, the dotenv parser, `filepath`, the image-reference library)
    are modelled from the specification, as marked in the doc comments.
-/
import Mathlib

namespace Compose

/-! ## Association lists standing in for Go maps -/

/-- Association list keyed by strings; the shallow embedding of a Go map. -/
abbrev AList (α : Type) := List (String × α)

/-- Lookup of a key, first match wins (keys are kept unique). -/
def lookupA {α : Type} (l : AList α) (k : String) : Option α :=
  match l with
  | [] => none
  | (k1, v) :: t => if k1 = k then some v else lookupA t k

/-- Go's `_, ok := m[k]` membership test. -/
def hasKeyA {α : Type} (l : AList α) (k : String) : Bool :=
  (lookupA l k).isSome

/-- Go's `m[k] = v`: replace in place if present, else append. -/
def insertA {α : Type} (l : AList α) (k : String) (v : α) : AList α :=
  match l with
  | [] => [(k, v)]
  | (k1, v1) :: t => if k1 = k then (k, v) :: t else (k1, v1) :: insertA t k v

/-- Go's `delete(m, k)`. -/
def eraseA {α : Type} (l : AList α) (k : String) : AList α :=
  match l with
  | [] => []
  | (k1, v1) :: t => if k1 = k then t else (k1, v1) :: eraseA t k

/-- The key list of a Go map (`utils.MapKeys`), in the model's fixed order. -/
def keysA {α : Type} (l : AList α) : List String :=
  l.map Prod.fst

/-- Keys are pairwise distinct — the invariant every real Go map satisfies. -/
def NodupKeys {α : Type} (l : AList α) : Prop :=
  (keysA l).Nodup

instance {α : Type} (l : AList α) : Decidable (NodupKeys l) :=
  inferInstanceAs (Decidable (keysA l).Nodup)

/-! ## Data model

`Project` and its collections are translated from `types/project.go`;
the fields of `ServiceConfig` (defined outside the supplied sources) are
modelled from the specification, keeping exactly the fields the verified
operations read. -/

/-- One `depends_on` edge: `{Required: bool, Condition: enum}`.
Modelled from the spec: the Go definition is outside the supplied sources. -/
structure ServiceDependency where
  Required : Bool
  Condition : String
deriving DecidableEq

/-- One entry of a service's ordered env-file list: `{Path, Required}`.
Modelled from the spec: the Go definition is outside the supplied sources. -/
structure EnvFile where
  Path : String
  Required : Bool
deriving DecidableEq

/-- Project-level environment: key → value (`Mapping`).
Modelled from the spec: the Go definition is outside the supplied sources. -/
abbrev Mapping := AList String

/-- Service environment: key → optional value; `none` is the distinct
"key present but unset" state. Modelled from the spec: the Go definition
is outside the supplied sources. -/
abbrev MappingWithEquals := AList (Option String)

/-- One named service. Modelled from the spec: the Go `ServiceConfig` is
outside the supplied sources; the model keeps the fields `project.go`
reads (`Name`, `Profiles`, `DependsOn`, `Image`, `Environment`,
`EnvFiles`). -/
structure ServiceConfig where
  Name : String
  Profiles : List String
  DependsOn : AList ServiceDependency
  Image : String
  Environment : MappingWithEquals
  EnvFiles : List EnvFile
deriving DecidableEq

instance : Inhabited ServiceConfig := ⟨⟨"", [], [], "", [], []⟩⟩

/- `type Services map[string]ServiceConfig` is `AList ServiceConfig`;
the Go type name is not kept as an abbreviation because it would collide
with the `Services` field of `Project`. -/

/-- The root aggregate, from `types/project.go`.  Provenance metadata
(`Extensions`, `IncludeReferences`, `ComposeFiles`) and the resource
collections read only by the unclaimed `WithoutUnnecessaryResources`
are not carried by the model. -/
structure Project where
  Name : String
  WorkingDir : String
  Services : AList ServiceConfig
  Environment : Mapping
  DisabledServices : AList ServiceConfig
  Profiles : List String
deriving DecidableEq

instance : Inhabited Project := ⟨⟨"", "", [], [], [], []⟩⟩

/-- `deepCopy` (`copystructure.Copy`): a full value copy of the aggregate.
In the pure embedding a value copy is the identity; aliasing between the
copy and the original is not representable. -/
def Project.deepCopy (p : Project) : Project := p

/-- `ServiceConfig.deepCopy`, the per-service copy handed to visitors. -/
def ServiceConfig.deepCopy (s : ServiceConfig) : ServiceConfig := s

/-- `AllServices`: enabled services, then disabled services, written into
one map (a later write overwrites an earlier key, as in the Go loops). -/
def Project.AllServices (p : Project) : AList ServiceConfig :=
  p.DisabledServices.foldl (fun acc kv => insertA acc kv.1 kv.2) p.Services

/-- `HasProfile`: true if the service has no profile declared or at least
one declared profile equals (plain string equality) a requested one. -/
def ServiceConfig.HasProfile (s : ServiceConfig) (profiles : List String) : Bool :=
  if s.Profiles.isEmpty then true
  else profiles.any (fun p => s.Profiles.any (fun sp => sp = p))

/-! ## Path resolution -/

/-- `filepath.IsAbs`, modelled from the spec for Unix paths: absolute
means starting with the separator. -/
def isAbs (path : String) : Bool :=
  match path.data with
  | [] => false
  | c :: _ => c = '/'

/-- `filepath.Join`, modelled from the spec: joins the two elements with
the separator (the lexical `Clean` pass of the Go library is elided). -/
def filepathJoin (a b : String) : String :=
  a ++ "/" ++ b

/-- `RelativePath`.  `home` stands for `os.UserHomeDir()`.  The Go source
indexes `path[0]` unconditionally, so the empty path panics with an
index-out-of-range runtime error; the model returns `none` there. -/
def Project.RelativePath (p : Project) (home : String) (path : String) : Option String :=
  match path.data with
  | [] => none
  | c :: rest =>
    let path1 := if c = '~' then filepathJoin home (String.mk rest) else path
    if isAbs path1 then some path1 else some (filepathJoin p.WorkingDir path1)

/-! ## Profile filtering -/

/-- `WithProfiles`.  The Go function also returns an error that is always
nil, elided here.  With a wildcard `"*"` among the requested profiles the
deep copy is returned unchanged (early return in the source). -/
def Project.WithProfiles (p : Project) (profiles : List String) : Project :=
  let newProject := p.deepCopy
  if profiles.contains "*" then newProject
  else
    let all := newProject.AllServices
    let enabled := all.filter (fun kv => kv.2.HasProfile profiles)
    let disabled := all.filter (fun kv => ¬ kv.2.HasProfile profiles)
    { newProject with Services := enabled, DisabledServices := disabled,
                      Profiles := profiles }

/-! ## Disabling services -/

/-- One pass of the `WithServicesDisabled` loop body for a single `name`:
first every service's `DependsOn` edge to `name` is removed, then a
matching enabled service is moved to `DisabledServices`. -/
def disableOne (np : Project) (name : String) : Project :=
  let services := np.Services.map (fun kv =>
    (kv.1, if hasKeyA kv.2.DependsOn name then
      { kv.2 with DependsOn := eraseA kv.2.DependsOn name }
    else kv.2))
  match lookupA services name with
  | some svc =>
    { np with Services := eraseA services name,
              DisabledServices := insertA np.DisabledServices name svc }
  | none => { np with Services := services }

/-- `WithServicesDisabled`. -/
def Project.WithServicesDisabled (p : Project) (names : List String) : Project :=
  let newProject := p.deepCopy
  if names.isEmpty then newProject
  else names.foldl disableOne newProject

/-! ## Dependency graph walker -/

/-- The dependency policy, the closed enumeration behind the
`DependencyOption` closures (`IncludeDependencies`, `IncludeDependents`,
`IgnoreDependencies`). -/
inductive DepPolicy
  | includeDependencies
  | includeDependents
  | ignoreDependencies
deriving DecidableEq

/-- `dependentsForService`: the reverse edges — every service whose
`DependsOn` names `s.Name`, keyed by the dependent's `Name` field. -/
def Project.dependentsForService (p : Project) (s : ServiceConfig) :
    AList ServiceDependency :=
  p.Services.foldl (fun acc kv =>
    kv.2.DependsOn.foldl (fun acc2 dv =>
      if dv.1 = s.Name then insertA acc2 kv.2.Name dv.2 else acc2) acc) []

/-- The dependency map the walker recurses into for one service, per the
`switch opts.dependencyPolicy` of the source. -/
def depsFor (p : Project) (policy : DepPolicy) (svc : ServiceConfig) :
    AList ServiceDependency :=
  match policy with
  | .includeDependents => p.dependentsForService svc
  | .includeDependencies => svc.DependsOn
  | .ignoreDependencies => []

/-- The found half of `getServicesByNames`: empty `names` selects all
services.  The Go code collects the found services into a map, which
de-duplicates repeated names; keeping duplicates here is observationally
equal because the walker's seen-check skips a second visit. -/
def foundOf (p : Project) (names : List String) : AList ServiceConfig :=
  if names.isEmpty then p.Services
  else names.filterMap (fun n => (lookupA p.Services n).map (fun s => (n, s)))

/-- The not-found half of `getServicesByNames`. -/
def notFoundOf (p : Project) (names : List String) : List String :=
  if names.isEmpty then []
  else names.filter (fun n => ¬ hasKeyA p.Services n)

/-- The missing-name check of `withServices`: the first not-found name
that is either requested directly (absent from `deps`) or reached through
a required dependency edge yields a "no such service" error. -/
def missingErr (notFound : List String) (deps : AList ServiceDependency) :
    Option String :=
  (notFound.find? (fun n =>
    match lookupA deps n with
    | none => true
    | some d => d.Required)).map (fun n => "no such service: " ++ n)

/-- Number of service keys not yet marked seen; the walker's termination
measure. -/
def unseenCount (p : Project) (seen : List String) : Nat :=
  ((keysA p.Services).filter (fun k => decide (k ∉ seen))).length

lemma length_filter_notMem_le (s1 s2 : List String)
    (h : ∀ k, k ∈ s1 → k ∈ s2) (base : List String) :
    (base.filter (fun k => decide (k ∉ s2))).length ≤
      (base.filter (fun k => decide (k ∉ s1))).length := by
  refine (List.monotone_filter_right base ?_).length_le
  intro k
  by_cases h2 : k ∈ s2
  · simp [h2]
  · have h1 : k ∉ s1 := fun hc => h2 (h k hc)
    simp [h1, h2]

lemma length_filter_notMem_lt (s : List String) (k0 : String) (hk0 : k0 ∉ s)
    (base : List String) (hmem : k0 ∈ base) :
    (base.filter (fun k => decide (k ∉ (k0 :: s)))).length <
      (base.filter (fun k => decide (k ∉ s))).length := by
  induction base with
  | nil => cases hmem
  | cons a t ih =>
    rw [List.filter_cons, List.filter_cons]
    rcases List.mem_cons.mp hmem with rfl | hmem2
    · rw [if_neg (by simp), if_pos (by simp [hk0])]
      have hle := length_filter_notMem_le s (k0 :: s)
        (fun k hk => List.mem_cons_of_mem _ hk) t
      simp only [List.length_cons]
      exact Nat.lt_succ_of_le hle
    · have ihs := ih hmem2
      by_cases h2 : a ∈ (k0 :: s)
      · rw [if_neg (by simp [h2])]
        by_cases h3 : a ∈ s
        · rw [if_neg (by simp [h3])]
          exact ihs
        · rw [if_pos (by simp [h3])]
          simp only [List.length_cons]
          exact Nat.lt_succ_of_lt ihs
      · have h3 : a ∉ s := fun hc => h2 (List.mem_cons_of_mem _ hc)
        rw [if_pos (by simp [h2]), if_pos (by simp [h3])]
        simp only [List.length_cons]
        exact Nat.succ_lt_succ ihs

lemma mem_keysA_of_hasKeyA {α : Type} {l : AList α} {k : String}
    (h : hasKeyA l k = true) : k ∈ keysA l := by
  induction l with
  | nil => simp [hasKeyA, lookupA] at h
  | cons kv t ih =>
    by_cases he : kv.1 = k
    · simp [keysA, he]
    · simp [hasKeyA, lookupA, he] at h
      exact List.mem_cons_of_mem _ (ih h)

lemma unseenCount_le_of_suffix (p : Project) {s1 s2 : List String}
    (h : s1 <:+ s2) : unseenCount p s2 ≤ unseenCount p s1 :=
  length_filter_notMem_le s1 s2 (fun _ hk => h.subset hk) _

lemma unseenCount_lt_cons (p : Project) {seen : List String} {k : String}
    (hk : hasKeyA p.Services k = true) (hs : k ∉ seen) :
    unseenCount p (k :: seen) < unseenCount p seen :=
  length_filter_notMem_lt seen k hs _ (mem_keysA_of_hasKeyA hk)

/-- The recursive body of `withServices`: walk a list of found services
with the shared seen set.  For each unseen service: mark it seen, walk
its dependency map (the recursive `withServices` call of the source is
inlined: its not-found check followed by the walk of its found
services), then visit the service itself — the visit sequence collects
`(name, service.deepCopy)` in visit order, and applying the
caller-supplied `fn` is folding it over that sequence.  The returned
seen set carries a suffix certificate used by the termination measure. -/
def walkItems (p : Project) (policy : DepPolicy) :
    (items : AList ServiceConfig) → (seen : List String) →
      Except String (AList ServiceConfig × {s2 : List String // seen <:+ s2})
  | [], seen => .ok ([], ⟨seen, List.suffix_refl seen⟩)
  | (name, svc) :: rest, seen =>
    if hseen : name ∈ seen then
      walkItems p policy rest seen
    else if hk : hasKeyA p.Services name = true then
      let deps := depsFor p policy svc
      if deps.isEmpty then
        match walkItems p policy rest (name :: seen) with
        | .error e => .error e
        | .ok (tr, ⟨s2, h2⟩) =>
          .ok ((name, svc.deepCopy) :: tr,
               ⟨s2, (List.suffix_cons name seen).trans h2⟩)
      else
        match missingErr (notFoundOf p (keysA deps)) deps with
        | some e => .error e
        | none =>
          match walkItems p policy (foundOf p (keysA deps)) (name :: seen) with
          | .error e => .error e
          | .ok (tr1, ⟨s2, h2⟩) =>
            match walkItems p policy rest s2 with
            | .error e => .error e
            | .ok (tr2, ⟨s3, h3⟩) =>
              .ok (tr1 ++ (name, svc.deepCopy) :: tr2,
                   ⟨s3, ((List.suffix_cons name seen).trans h2).trans h3⟩)
    else
      -- unreachable when items originate from `foundOf`
      walkItems p policy rest seen
termination_by items seen => (unseenCount p seen, items.length)
decreasing_by
· exact Prod.Lex.right _ (by simp)
· exact Prod.Lex.left _ _ (unseenCount_lt_cons p hk hseen)
· exact Prod.Lex.left _ _ (unseenCount_lt_cons p hk hseen)
· exact Prod.Lex.left _ _
    (lt_of_le_of_lt (unseenCount_le_of_suffix p h2) (unseenCount_lt_cons p hk hseen))
· exact Prod.Lex.right _ (by simp)

/-- `withServices`: the not-found check against the dependency map that
produced `names`, then the walk of the found services. -/
def withServices (p : Project) (policy : DepPolicy) (names : List String)
    (seen : List String) (deps : AList ServiceDependency) :
    Except String (AList ServiceConfig × List String) :=
  match missingErr (notFoundOf p names) deps with
  | some e => .error e
  | none =>
    match walkItems p policy (foundOf p names) seen with
    | .error e => .error e
    | .ok (tr, s2) => .ok (tr, s2.1)

/-- `ForEachService` with an explicit policy (the source defaults to
`IncludeDependencies` when no option is supplied): empty seen set, empty
dependency map, and the visit sequence as result. -/
def Project.ForEachService (p : Project) (names : List String)
    (policy : DepPolicy) : Except String (AList ServiceConfig) :=
  (withServices p policy names [] []).map Prod.fst

/-! ## Service selection -/

/-- `WithSelectedServices`.  The closure of `names` is computed with
`ForEachService` on the receiver (the source's visitor collects the
visited names into a set; here the visit sequence provides them).  The
Go loop ranges over the snapshot of the copy's `Services` taken before
the loop, while rebinding `newProject` through `WithServicesDisabled`
for every name outside the closure; the model folds the same calls over
the same snapshot and then replaces `Services` by the retained services
with their `DependsOn` edges restricted to the closure. -/
def Project.WithSelectedServices (p : Project) (names : List String)
    (policy : DepPolicy) : Except String Project :=
  let newProject := p.deepCopy
  if names.isEmpty then .ok newProject
  else
    match p.ForEachService names policy with
    | .error e => .error e
    | .ok trace =>
      let set := trace.map Prod.fst
      let np2 := newProject.Services.foldl
        (fun acc kv =>
          if set.contains kv.1 then acc else acc.WithServicesDisabled [kv.1])
        newProject
      let enabled := newProject.Services.foldl
        (fun acc kv =>
          if set.contains kv.1 then
            insertA acc kv.1
              { kv.2 with DependsOn := kv.2.DependsOn.filter (fun dv => set.contains dv.1) }
          else acc) []
      .ok { np2 with Services := enabled }

/-! ## Environment resolution -/

/-- The observable outcome of `os.Stat`/`os.ReadFile`/`dotenv.Parse` for
one env file.  Modelled from the spec: the file system and the dotenv
parser are outside the supplied sources; a readable file is modelled by
its parsed key=value content (the nested-variable expansion the parser
performs through the lookup function is folded into that content). -/
inductive FileResult
  | missing
  | unreadable
  | parsed (vars : Mapping)
deriving DecidableEq

/-- `MappingWithEquals.OverrideBy`: every key of `other` overwrites.
Modelled from the spec: last-writer-wins per key, an explicit `none`
("unset") also overwrites. -/
def overrideBy (e other : MappingWithEquals) : MappingWithEquals :=
  other.foldl (fun acc kv => insertA acc kv.1 kv.2) e

/-- `Mapping.ToMappingWithEquals`.  Modelled from the spec. -/
def toMappingWithEquals (m : Mapping) : MappingWithEquals :=
  m.map (fun kv => (kv.1, some kv.2))

/-- `MappingWithEquals.Resolve`: a key declared without a value is filled
from the lookup when it resolves.  Modelled from the spec. -/
def resolveMWE (e : MappingWithEquals) (lookup : String → Option String) :
    MappingWithEquals :=
  e.map (fun kv => (kv.1, match kv.2 with
    | some v => some v
    | none => lookup kv.1))

/-- The env-file loop of `WithServicesEnvironmentResolved` for one
service: files in list order; a missing file errors when required and is
skipped otherwise; an unreadable file errors; parsed content is merged
over the accumulator (later files override earlier ones). -/
def accumulateEnvFiles (fs : String → FileResult) :
    List EnvFile → MappingWithEquals → Except String MappingWithEquals
  | [], acc => .ok acc
  | f :: rest, acc =>
    match fs f.Path with
    | .missing =>
      if f.Required then .error ("env file " ++ f.Path ++ " not found")
      else accumulateEnvFiles fs rest acc
    | .unreadable => .error ("failed to load " ++ f.Path)
    | .parsed vars =>
      accumulateEnvFiles fs rest (overrideBy acc (toMappingWithEquals vars))

/-- The per-service body of `WithServicesEnvironmentResolved`. -/
def resolveServiceEnv (fs : String → FileResult) (projEnv : Mapping)
    (discardEnvFiles : Bool) (service : ServiceConfig) :
    Except String ServiceConfig :=
  let declared := resolveMWE service.Environment (lookupA projEnv)
  match accumulateEnvFiles fs service.EnvFiles [] with
  | .error e => .error e
  | .ok environment =>
    .ok { service with
          Environment := overrideBy environment declared,
          EnvFiles := if discardEnvFiles then [] else service.EnvFiles }

/-- The service loop of `WithServicesEnvironmentResolved`, replacing each
enabled service's value in order and stopping at the first error. -/
def resolveAllServiceEnvs (fs : String → FileResult) (projEnv : Mapping)
    (discardEnvFiles : Bool) :
    AList ServiceConfig → Except String (AList ServiceConfig)
  | [] => .ok []
  | kv :: rest =>
    match resolveServiceEnv fs projEnv discardEnvFiles kv.2 with
    | .error e => .error e
    | .ok svc =>
      match resolveAllServiceEnvs fs projEnv discardEnvFiles rest with
      | .error e => .error e
      | .ok rest2 => .ok ((kv.1, svc) :: rest2)

/-- `WithServicesEnvironmentResolved`.  `fs` stands for the file system
(and dotenv parser) consulted for each env file path. -/
def Project.WithServicesEnvironmentResolved (p : Project)
    (fs : String → FileResult) (discardEnvFiles : Bool) :
    Except String Project :=
  let newProject := p.deepCopy
  match resolveAllServiceEnvs fs newProject.Environment discardEnvFiles
      newProject.Services with
  | .error e => .error e
  | .ok services => .ok { newProject with Services := services }

/-! ## Enabling services -/

/-- `WithServicesEnabled`: collect the declared profiles of the requested
currently-disabled services (a name absent from both maps contributes the
zero-value service, hence no profiles), re-run `WithProfiles` with the
extended profile list, then re-resolve service environments discarding
env-file lists. -/
def Project.WithServicesEnabled (p : Project) (fs : String → FileResult)
    (names : List String) : Except String Project :=
  let newProject := p.deepCopy
  if names.isEmpty then .ok newProject
  else
    let profiles := names.foldl
      (fun acc name =>
        if hasKeyA newProject.Services name then acc
        else
          match lookupA p.DisabledServices name with
          | some service => acc ++ service.Profiles
          | none => acc)
      p.Profiles
    let np2 := newProject.WithProfiles profiles
    np2.WithServicesEnvironmentResolved fs true

/-! ## Image digest resolution -/

/-- A parsed image reference.  Modelled from the spec: the
`distribution/reference` library is outside the supplied sources; the
model splits a reference at its first digest separator and a reference
round-trips through parsing unchanged. -/
structure NamedRef where
  base : String
  digest : Option String
deriving DecidableEq

/-- Split a character list at the first occurrence of `sep`. -/
def splitFirst (sep : Char) : List Char → Option (List Char × List Char)
  | [] => none
  | c :: t =>
    if c = sep then some ([], t)
    else (splitFirst sep t).map (fun pr => (c :: pr.1, pr.2))

/-- `reference.ParseDockerRef`.  Modelled from the spec: an empty
reference is malformed; otherwise the part after the first `@` is the
digest. -/
def parseDockerRef (s : String) : Except String NamedRef :=
  match s.data with
  | [] => .error "invalid reference format"
  | cs =>
    match splitFirst '@' cs with
    | none => .ok ⟨s, none⟩
    | some pr => .ok ⟨String.mk pr.1, some (String.mk pr.2)⟩

/-- `named.String()`: the canonical string of a parsed reference.
Modelled from the spec. -/
def refString (n : NamedRef) : String :=
  match n.digest with
  | none => n.base
  | some d => n.base ++ "@" ++ d

/-- `reference.Canonical` test: the reference is digest-qualified.
Modelled from the spec. -/
def isCanonical (n : NamedRef) : Bool :=
  n.digest.isSome

/-- The body of one `WithImagesResolved` worker for a service with a
non-empty image. -/
def resolveImageOne (resolver : NamedRef → Except String String)
    (service : ServiceConfig) : Except String ServiceConfig :=
  match parseDockerRef service.Image with
  | .error e => .error e
  | .ok named =>
    if isCanonical named then
      .ok { service with Image := refString named }
    else
      match resolver named with
      | .error e => .error e
      | .ok digest =>
        .ok { service with Image := refString ⟨named.base, some digest⟩ }

/-- The loop body of `WithImagesResolved`: one worker per service with a
non-empty image; every worker runs to completion even after another has
failed (`errgroup` without cancellation), so every successful rewrite
lands in the copy's service map, and the copy is returned together with
the first error (`return newProject, eg.Wait()`).  Which failing worker
supplies the error is scheduling-dependent in Go; the model takes the
first in service order. -/
def imagesBody (resolver : NamedRef → Except String String)
    (acc : AList ServiceConfig × Option String) (kv : String × ServiceConfig) :
    AList ServiceConfig × Option String :=
  if kv.2.Image = "" then (acc.1 ++ [kv], acc.2)
  else
    match resolveImageOne resolver kv.2 with
    | .ok svc2 => (acc.1 ++ [(kv.1, svc2)], acc.2)
    | .error e =>
      (acc.1 ++ [kv], match acc.2 with | some e0 => some e0 | none => some e)

def Project.WithImagesResolved (p : Project)
    (resolver : NamedRef → Except String String) :
    Project × Option String :=
  let newProject := p.deepCopy
  let folded := newProject.Services.foldl (imagesBody resolver) ([], none)
  ({ newProject with Services := folded.1 }, folded.2)

/-- The per-service outcome of its `WithImagesResolved` worker: a failed
or skipped service keeps its entry, a successful one gets the rewritten
image. -/
def imageStep (resolver : NamedRef → Except String String)
    (kv : String × ServiceConfig) : String × ServiceConfig :=
  if kv.2.Image = "" then kv
  else
    match resolveImageOne resolver kv.2 with
    | .ok svc2 => (kv.1, svc2)
    | .error _ => kv

/-- The error (if any) of a service's `WithImagesResolved` worker. -/
def imageErr (resolver : NamedRef → Except String String)
    (kv : String × ServiceConfig) : Option String :=
  if kv.2.Image = "" then none
  else
    match resolveImageOne resolver kv.2 with
    | .ok _ => none
    | .error e => some e

/-! ## Association list lemmas -/

lemma lookupA_isSome_iff {α : Type} {l : AList α} {k : String} :
    (lookupA l k).isSome = true ↔ k ∈ keysA l := by
  induction l with
  | nil => simp [lookupA, keysA]
  | cons kv t ih =>
    by_cases he : kv.1 = k
    · simp [lookupA, keysA, he]
    · rw [lookupA, if_neg he, ih]
      simp only [keysA, List.map_cons, List.mem_cons]
      constructor
      · intro h; right; exact h
      · rintro (h | h)
        · exact absurd h.symm he
        · exact h

lemma hasKeyA_iff {α : Type} {l : AList α} {k : String} :
    hasKeyA l k = true ↔ k ∈ keysA l := by
  rw [hasKeyA]; exact lookupA_isSome_iff

lemma lookupA_eq_none_iff {α : Type} {l : AList α} {k : String} :
    lookupA l k = none ↔ k ∉ keysA l := by
  rw [← lookupA_isSome_iff]
  cases lookupA l k <;> simp

lemma lookupA_mem {α : Type} {l : AList α} {k : String} {v : α}
    (h : lookupA l k = some v) : (k, v) ∈ l := by
  induction l with
  | nil => simp [lookupA] at h
  | cons kv t ih =>
    obtain ⟨a, b⟩ := kv
    by_cases he : a = k
    · subst he
      simp only [lookupA, if_pos rfl] at h
      cases h
      exact List.mem_cons_self _ _
    · simp only [lookupA, if_neg he] at h
      exact List.mem_cons_of_mem _ (ih h)

lemma mem_lookupA {α : Type} {l : AList α} {k : String} {v : α}
    (hn : NodupKeys l) (h : (k, v) ∈ l) : lookupA l k = some v := by
  induction l with
  | nil => cases h
  | cons kv t ih =>
    rcases List.mem_cons.mp h with rfl | h2
    · simp [lookupA]
    · have hk : k ∈ keysA t := by
        simp only [keysA]
        exact List.mem_map_of_mem Prod.fst h2
      have hne : kv.1 ≠ k := by
        intro he
        have : kv.1 ∉ keysA t := by
          have := hn
          simp only [NodupKeys, keysA, List.map_cons, List.nodup_cons] at this
          exact this.1
        rw [he] at this
        exact this hk
      have hn2 : NodupKeys t := by
        simp only [NodupKeys, keysA, List.map_cons, List.nodup_cons] at hn
        exact hn.2
      simp only [lookupA, if_neg hne]
      exact ih hn2 h2

lemma nodupKeys_cons_iff {α : Type} {kv : String × α} {t : AList α} :
    NodupKeys (kv :: t) ↔ kv.1 ∉ keysA t ∧ NodupKeys t := by
  simp [NodupKeys, keysA]

lemma lookupA_insertA_self {α : Type} (l : AList α) (k : String) (v : α) :
    lookupA (insertA l k v) k = some v := by
  induction l with
  | nil => simp [insertA, lookupA]
  | cons kv t ih =>
    by_cases he : kv.1 = k
    · simp [insertA, he, lookupA]
    · simp [insertA, he, lookupA, ih]

lemma lookupA_insertA_ne {α : Type} (l : AList α) (k k1 : String) (v : α)
    (hne : k1 ≠ k) : lookupA (insertA l k v) k1 = lookupA l k1 := by
  have hne2 : ¬ k = k1 := fun h => hne h.symm
  induction l with
  | nil =>
    simp only [insertA, lookupA]
    rw [if_neg hne2]
  | cons kv t ih =>
    by_cases he : kv.1 = k
    · simp only [insertA, if_pos he, lookupA]
      rw [if_neg hne2, if_neg]
      rw [he]
      exact hne2
    · simp only [insertA, if_neg he, lookupA]
      by_cases he2 : kv.1 = k1
      · simp [he2]
      · simp [he2, ih]

lemma keysA_insertA_sub {α : Type} (l : AList α) (k k1 : String) (v : α) :
    k1 ∈ keysA (insertA l k v) ↔ k1 = k ∨ k1 ∈ keysA l := by
  induction l with
  | nil => simp [insertA, keysA, eq_comm]
  | cons kv t ih =>
    by_cases he : kv.1 = k
    · simp only [insertA, if_pos he, keysA, List.map_cons, List.mem_cons]
      constructor
      · rintro (h | h)
        · left; exact h
        · right; right; exact h
      · rintro (h | h | h)
        · left; exact h
        · left; exact h.trans he
        · right; exact h
    · simp only [insertA, if_neg he, keysA, List.map_cons, List.mem_cons]
      rw [show (List.map Prod.fst (insertA t k v)) = keysA (insertA t k v) from rfl]
      rw [ih]
      tauto

lemma nodupKeys_insertA {α : Type} {l : AList α} (hn : NodupKeys l)
    (k : String) (v : α) : NodupKeys (insertA l k v) := by
  induction l with
  | nil => simp [insertA, NodupKeys, keysA]
  | cons kv t ih =>
    rcases nodupKeys_cons_iff.mp hn with ⟨hk, hn2⟩
    by_cases he : kv.1 = k
    · rw [insertA, if_pos he]
      rw [show ((k, v) :: t : AList α) = (k, v) :: t from rfl]
      refine nodupKeys_cons_iff.mpr ⟨?_, hn2⟩
      rw [← he]
      exact hk
    · rw [insertA, if_neg he]
      refine nodupKeys_cons_iff.mpr ⟨?_, ih hn2⟩
      intro hc
      rcases (keysA_insertA_sub t k kv.1 v).mp hc with h | h
      · exact he h
      · exact hk h

lemma lookupA_eraseA_ne {α : Type} (l : AList α) (k k1 : String)
    (hne : k1 ≠ k) : lookupA (eraseA l k) k1 = lookupA l k1 := by
  induction l with
  | nil => simp [eraseA]
  | cons kv t ih =>
    by_cases he : kv.1 = k
    · simp only [eraseA, if_pos he, lookupA]
      rw [if_neg]
      rw [he]
      exact fun h => hne h.symm
    · simp only [eraseA, if_neg he, lookupA]
      by_cases he2 : kv.1 = k1
      · simp [he2]
      · simp [he2, ih]

lemma keysA_eraseA_sub {α : Type} (l : AList α) (k k1 : String) :
    k1 ∈ keysA (eraseA l k) → k1 ∈ keysA l := by
  induction l with
  | nil => simp [eraseA]
  | cons kv t ih =>
    by_cases he : kv.1 = k
    · simp only [eraseA, if_pos he, keysA, List.map_cons, List.mem_cons]
      intro h
      right
      exact h
    · simp only [eraseA, if_neg he, keysA, List.map_cons, List.mem_cons]
      rintro (h | h)
      · left; exact h
      · right; exact ih h

lemma nodupKeys_eraseA {α : Type} {l : AList α} (hn : NodupKeys l)
    (k : String) : NodupKeys (eraseA l k) := by
  induction l with
  | nil => simp [eraseA, NodupKeys, keysA]
  | cons kv t ih =>
    rcases nodupKeys_cons_iff.mp hn with ⟨hk, hn2⟩
    by_cases he : kv.1 = k
    · rw [eraseA, if_pos he]
      exact hn2
    · rw [eraseA, if_neg he]
      refine nodupKeys_cons_iff.mpr ⟨?_, ih hn2⟩
      intro hc
      exact hk (keysA_eraseA_sub t k kv.1 hc)

lemma lookupA_eraseA_self {α : Type} {l : AList α} (hn : NodupKeys l)
    (k : String) : lookupA (eraseA l k) k = none := by
  induction l with
  | nil => simp [eraseA, lookupA]
  | cons kv t ih =>
    rcases nodupKeys_cons_iff.mp hn with ⟨hk, hn2⟩
    by_cases he : kv.1 = k
    · rw [eraseA, if_pos he]
      rw [lookupA_eq_none_iff]
      rw [← he]
      exact hk
    · rw [eraseA, if_neg he]
      simp only [lookupA, if_neg he]
      exact ih hn2

lemma lookupA_filter {α : Type} {l : AList α} (hn : NodupKeys l)
    (pred : String × α → Bool) (k : String) :
    lookupA (l.filter pred) k =
      match lookupA l k with
      | some v => if pred (k, v) then some v else none
      | none => none := by
  induction l with
  | nil => simp [lookupA]
  | cons kv t ih =>
    rcases nodupKeys_cons_iff.mp hn with ⟨hk, hn2⟩
    rw [List.filter_cons]
    by_cases he : kv.1 = k
    · have hnone : lookupA t k = none := by
        rw [lookupA_eq_none_iff, ← he]
        exact hk
      by_cases hp : pred kv = true
      · rw [if_pos hp]
        simp only [lookupA, if_pos he]
        rw [← he]
        cases kv
        simp [hp]
      · rw [if_neg hp]
        rw [ih hn2, hnone]
        simp only [lookupA, if_pos he]
        rw [← he]
        cases kv
        simp only
        rw [if_neg hp]
    · by_cases hp : pred kv = true
      · rw [if_pos hp]
        simp only [lookupA, if_neg he]
        exact ih hn2
      · rw [if_neg hp]
        rw [ih hn2]
        simp only [lookupA, if_neg he]

/-! ## Walker invariants -/

lemma walkItems_seen (p : Project) (policy : DepPolicy) :
    ∀ (items : AList ServiceConfig) (seen : List String)
      (res : AList ServiceConfig × {s2 : List String // seen <:+ s2}),
      walkItems p policy items seen = .ok res →
      ((∀ x, x ∈ res.2.1 ↔ x ∈ res.1.map Prod.fst ∨ x ∈ seen) ∧
       (∀ x ∈ res.1.map Prod.fst, x ∉ seen) ∧
       (res.1.map Prod.fst).Nodup) := by
  intro items seen
  induction items, seen using walkItems.induct p policy
  next seen =>
    intro res heq
    simp only [walkItems] at heq
    cases heq
    simp
  next name svc rest seen hseen ih =>
    intro res heq
    simp only [walkItems, hseen] at heq
    have h := ih res heq
    refine ⟨h.1, h.2.1, h.2.2⟩
  next name svc rest seen hseen hk deps hd e herr ih =>
    intro res heq
    rw [show deps = depsFor p policy svc from rfl] at hd
    simp only [walkItems, hseen, hk, hd, herr, dite_true, dite_false, ite_true,
      ite_false] at heq
    exact Except.noConfusion heq
  next name svc rest seen hseen hk deps hd tr s2 h2 hrec ih =>
    intro res heq
    rw [show deps = depsFor p policy svc from rfl] at hd
    simp only [walkItems, hseen, hk, hd, hrec, dite_true, dite_false, ite_true,
      ite_false] at heq
    cases heq
    obtain ⟨A, B, C⟩ := ih (tr, ⟨s2, h2⟩) hrec
    simp only [List.map_cons, List.mem_cons] at *
    refine ⟨?_, ?_, ?_⟩
    · intro x
      have := A x
      simp only [List.mem_cons] at this
      tauto
    · rintro x (rfl | hx)
      · exact hseen
      · intro hc
        exact B x hx (Or.inr hc)
    · refine List.nodup_cons.mpr ⟨?_, C⟩
      intro hc
      exact B name hc (Or.inl rfl)
  next name svc rest seen hseen hk deps hd e hmiss =>
    intro res heq
    rw [show deps = depsFor p policy svc from rfl] at hd hmiss
    simp only [walkItems, hseen, hk, hd, hmiss, dite_true, dite_false, ite_true,
      ite_false, Bool.false_eq_true] at heq
    exact Except.noConfusion heq
  next name svc rest seen hseen hk deps hd hmiss e herr ih1 =>
    intro res heq
    rw [show deps = depsFor p policy svc from rfl] at hd hmiss herr
    simp only [walkItems, hseen, hk, hd, hmiss, herr, dite_true, dite_false,
      ite_true, ite_false, Bool.false_eq_true] at heq
    exact Except.noConfusion heq
  next name svc rest seen hseen hk deps hd hmiss tr1 s2 h2 hrec1 e herr ih1 ih2 =>
    intro res heq
    rw [show deps = depsFor p policy svc from rfl] at hd hmiss hrec1
    simp only [walkItems, hseen, hk, hd, hmiss, hrec1, herr, dite_true, dite_false,
      ite_true, ite_false, Bool.false_eq_true] at heq
    exact Except.noConfusion heq
  next name svc rest seen hseen hk deps hd hmiss tr1 s2 h2 hrec1 tr2 s3 h3 hrec2 ih1 ih2 =>
    intro res heq
    rw [show deps = depsFor p policy svc from rfl] at hd hmiss hrec1
    simp only [walkItems, hseen, hk, hd, hmiss, hrec1, hrec2, dite_true,
      dite_false, ite_true, ite_false, Bool.false_eq_true] at heq
    cases heq
    obtain ⟨A1, B1, C1⟩ := ih1 (tr1, ⟨s2, h2⟩) hrec1
    obtain ⟨A2, B2, C2⟩ := ih2 (tr2, ⟨s3, h3⟩) hrec2
    have hsub : ∀ x, x ∈ seen → x ∈ s2 := fun x hx => (A1 x).mpr (Or.inr (List.mem_cons_of_mem _ hx))
    have hname : name ∈ s2 := (A1 name).mpr (Or.inr (List.mem_cons_self _ _))
    refine ⟨?_, ?_, ?_⟩
    · intro x
      have a2 := A2 x
      have a1 := A1 x
      simp only [List.map_append, List.map_cons, List.mem_append, List.mem_cons] at *
      tauto
    · intro x hx
      simp only [List.map_append, List.map_cons, List.mem_append, List.mem_cons] at hx
      rcases hx with hx | rfl | hx
      · intro hc
        exact B1 x hx (List.mem_cons_of_mem _ hc)
      · exact hseen
      · intro hc
        exact B2 x hx (hsub x hc)
    · simp only [List.map_append, List.map_cons]
      rw [List.nodup_append]
      refine ⟨C1, ?_, ?_⟩
      · refine List.nodup_cons.mpr ⟨?_, C2⟩
        intro hc
        exact B2 name hc hname
      · intro x hx1
        simp only [List.mem_cons]
        rintro (rfl | hx2)
        · exact B1 x hx1 (List.mem_cons_self _ _)
        · exact B2 x hx2 ((A1 x).mpr (Or.inl hx1))
  next name svc rest seen hseen hk ih =>
    intro res heq
    simp only [walkItems, hseen, hk] at heq
    have h := ih res heq
    refine ⟨h.1, h.2.1, h.2.2⟩

@[simp] lemma ServiceConfig.deepCopy_id (s : ServiceConfig) : s.deepCopy = s := rfl

@[simp] lemma Project.deepCopy_eq (p : Project) : p.deepCopy = p := rfl

/-- Well-formedness every real project satisfies: Go maps have unique
keys. -/
def ProjWF (p : Project) : Prop :=
  NodupKeys p.Services ∧ NodupKeys p.DisabledServices ∧
    ∀ kv ∈ p.Services, NodupKeys kv.2.DependsOn

instance (p : Project) : Decidable (ProjWF p) :=
  inferInstanceAs (Decidable (NodupKeys p.Services ∧
    NodupKeys p.DisabledServices ∧ ∀ kv ∈ p.Services, NodupKeys kv.2.DependsOn))

lemma nodupKeys_foldl_insertA {α : Type} (l : List (String × α)) :
    ∀ acc : AList α, NodupKeys acc →
      NodupKeys (l.foldl (fun a kv => insertA a kv.1 kv.2) acc) := by
  induction l with
  | nil => intro acc h; exact h
  | cons kv t ih =>
    intro acc h
    exact ih _ (nodupKeys_insertA h kv.1 kv.2)

lemma nodupKeys_dependentsForService (p : Project) (s : ServiceConfig) :
    NodupKeys (p.dependentsForService s) := by
  rw [Project.dependentsForService]
  have main : ∀ (l : List (String × ServiceConfig)) (acc : AList ServiceDependency),
      NodupKeys acc →
      NodupKeys (l.foldl (fun acc kv =>
        kv.2.DependsOn.foldl (fun acc2 dv =>
          if dv.1 = s.Name then insertA acc2 kv.2.Name dv.2 else acc2) acc) acc) := by
    intro l
    induction l with
    | nil => intro acc h; exact h
    | cons kv t ih =>
      intro acc h
      refine ih _ ?_
      have inner : ∀ (dl : AList ServiceDependency) (acc2 : AList ServiceDependency),
          NodupKeys acc2 →
          NodupKeys (dl.foldl (fun acc2 dv =>
            if dv.1 = s.Name then insertA acc2 kv.2.Name dv.2 else acc2) acc2) := by
        intro dl
        induction dl with
        | nil => intro acc2 h2; exact h2
        | cons dv dt ih2 =>
          intro acc2 h2
          by_cases hcond : dv.1 = s.Name
          · simp only [List.foldl_cons, if_pos hcond]
            exact ih2 _ (nodupKeys_insertA h2 _ _)
          · simp only [List.foldl_cons, if_neg hcond]
            exact ih2 _ h2
      exact inner _ _ h
  exact main _ _ (by simp [NodupKeys, keysA])

lemma nodupKeys_depsFor (p : Project) (policy : DepPolicy) {svc : ServiceConfig}
    (h : NodupKeys svc.DependsOn) : NodupKeys (depsFor p policy svc) := by
  cases policy with
  | includeDependencies => exact h
  | includeDependents => exact nodupKeys_dependentsForService p svc
  | ignoreDependencies => simp [depsFor, NodupKeys, keysA]

lemma foundOf_lookup (p : Project) (hn : NodupKeys p.Services)
    (names : List String) :
    ∀ kv ∈ foundOf p names, lookupA p.Services kv.1 = some kv.2 := by
  intro kv hkv
  rw [foundOf] at hkv
  by_cases he : names.isEmpty
  · rw [if_pos he] at hkv
    exact mem_lookupA hn hkv
  · rw [if_neg he] at hkv
    rcases List.mem_filterMap.mp hkv with ⟨n, _, hmap⟩
    rcases Option.map_eq_some.mp hmap with ⟨s, hlk, heq⟩
    cases heq
    exact hlk

lemma mem_foundOf (p : Project) (names : List String) {n : String}
    (hmem : n ∈ names) (hk : hasKeyA p.Services n = true) :
    n ∈ (foundOf p names).map Prod.fst := by
  rw [foundOf]
  have hne : ¬ names.isEmpty := by
    cases names with
    | nil => cases hmem
    | cons a t => simp
  rw [if_neg hne]
  rcases Option.isSome_iff_exists.mp hk with ⟨s, hs⟩
  refine List.mem_map.mpr ⟨(n, s), ?_, rfl⟩
  exact List.mem_filterMap.mpr ⟨n, hmem, by rw [hs]; rfl⟩

lemma mem_foundOf_all (p : Project) {k : String}
    (hk : k ∈ keysA p.Services) : k ∈ (foundOf p []).map Prod.fst := by
  rw [foundOf]
  simpa [keysA] using hk

lemma mem_notFoundOf (p : Project) (names : List String) {n : String}
    (hmem : n ∈ names) (hk : hasKeyA p.Services n = false) :
    n ∈ notFoundOf p names := by
  rw [notFoundOf]
  have hne : ¬ names.isEmpty := by
    cases names with
    | nil => cases hmem
    | cons a t => simp
  rw [if_neg hne]
  refine List.mem_filter.mpr ⟨hmem, ?_⟩
  simp [hk]

lemma notFoundOf_not_hasKey (p : Project) (names : List String) {m : String}
    (hmem : m ∈ notFoundOf p names) : hasKeyA p.Services m = false := by
  rw [notFoundOf] at hmem
  by_cases he : names.isEmpty
  · rw [if_pos he] at hmem
    cases hmem
  · rw [if_neg he] at hmem
    have := (List.mem_filter.mp hmem).2
    simpa using this

lemma missingErr_some {nf : List String} {deps : AList ServiceDependency}
    {e : String} (h : missingErr nf deps = some e) :
    ∃ m, m ∈ nf ∧ e = "no such service: " ++ m := by
  rw [missingErr] at h
  rcases Option.map_eq_some.mp h with ⟨m, hfind, heq⟩
  exact ⟨m, List.mem_of_find?_eq_some hfind, heq.symm⟩

lemma missingErr_none {nf : List String} {deps : AList ServiceDependency}
    (h : missingErr nf deps = none) :
    ∀ m ∈ nf, ∃ d, lookupA deps m = some d ∧ d.Required = false := by
  intro m hm
  rw [missingErr, Option.map_eq_none'] at h
  have := List.find?_eq_none.mp h m hm
  rcases hl : lookupA deps m with _ | d
  · rw [hl] at this
    simp at this
  · rw [hl] at this
    simp only [Bool.not_eq_true] at this
    exact ⟨d, rfl, by simpa using this⟩

/-- Walker invariant: on success every visited pair is a stored service
— the visitor is handed (the deep copy of) exactly the stored value. -/
lemma walkItems_lookup (p : Project) (policy : DepPolicy)
    (hn : NodupKeys p.Services) :
    ∀ (items : AList ServiceConfig) (seen : List String)
      (res : AList ServiceConfig × {s2 : List String // seen <:+ s2}),
      walkItems p policy items seen = .ok res →
      (∀ kv ∈ items, lookupA p.Services kv.1 = some kv.2) →
      ∀ kv ∈ res.1, lookupA p.Services kv.1 = some kv.2 := by
  intro items seen
  induction items, seen using walkItems.induct p policy
  next seen =>
    intro res heq hpre
    simp only [walkItems] at heq
    cases heq
    intro kv hkv
    cases hkv
  next name svc rest seen hseen ih =>
    intro res heq hpre
    simp only [walkItems, hseen] at heq
    exact ih res heq (fun kv hkv => hpre kv (List.mem_cons_of_mem _ hkv))
  next name svc rest seen hseen hk deps hd e herr ih =>
    intro res heq
    rw [show deps = depsFor p policy svc from rfl] at hd
    simp only [walkItems, hseen, hk, hd, herr, dite_true, dite_false, ite_true,
      ite_false] at heq
    exact Except.noConfusion heq
  next name svc rest seen hseen hk deps hd tr s2 h2 hrec ih =>
    intro res heq hpre
    rw [show deps = depsFor p policy svc from rfl] at hd
    simp only [walkItems, hseen, hk, hd, hrec, dite_true, dite_false, ite_true,
      ite_false] at heq
    cases heq
    intro kv hkv
    rcases List.mem_cons.mp hkv with rfl | hkv2
    · simpa using hpre (name, svc) (List.mem_cons_self _ _)
    · exact ih (tr, ⟨s2, h2⟩) hrec
        (fun kv hkv => hpre kv (List.mem_cons_of_mem _ hkv)) kv hkv2
  next name svc rest seen hseen hk deps hd e hmiss =>
    intro res heq
    rw [show deps = depsFor p policy svc from rfl] at hd hmiss
    simp only [walkItems, hseen, hk, hd, hmiss, dite_true, dite_false, ite_true,
      ite_false, Bool.false_eq_true] at heq
    exact Except.noConfusion heq
  next name svc rest seen hseen hk deps hd hmiss e herr ih1 =>
    intro res heq
    rw [show deps = depsFor p policy svc from rfl] at hd hmiss herr
    simp only [walkItems, hseen, hk, hd, hmiss, herr, dite_true, dite_false,
      ite_true, ite_false, Bool.false_eq_true] at heq
    exact Except.noConfusion heq
  next name svc rest seen hseen hk deps hd hmiss tr1 s2 h2 hrec1 e herr ih1 ih2 =>
    intro res heq
    rw [show deps = depsFor p policy svc from rfl] at hd hmiss hrec1
    simp only [walkItems, hseen, hk, hd, hmiss, hrec1, herr, dite_true, dite_false,
      ite_true, ite_false, Bool.false_eq_true] at heq
    exact Except.noConfusion heq
  next name svc rest seen hseen hk deps hd hmiss tr1 s2 h2 hrec1 tr2 s3 h3 hrec2 ih1 ih2 =>
    intro res heq hpre
    rw [show deps = depsFor p policy svc from rfl] at hd hmiss hrec1
    simp only [walkItems, hseen, hk, hd, hmiss, hrec1, hrec2, dite_true,
      dite_false, ite_true, ite_false, Bool.false_eq_true] at heq
    cases heq
    intro kv hkv
    simp only [List.mem_append, List.mem_cons] at hkv
    rcases hkv with hkv | hkv | hkv
    · exact ih1 (tr1, ⟨s2, h2⟩) hrec1
        (foundOf_lookup p hn (keysA (depsFor p policy svc))) kv hkv
    · cases hkv
      simpa using hpre (name, svc) (List.mem_cons_self _ _)
    · exact ih2 (tr2, ⟨s3, h3⟩) hrec2
        (fun kv hkv => hpre kv (List.mem_cons_of_mem _ hkv)) kv hkv
  next name svc rest seen hseen hk ih =>
    intro res heq hpre
    simp only [walkItems, hseen, hk] at heq
    exact ih res heq (fun kv hkv => hpre kv (List.mem_cons_of_mem _ hkv))

/-- Walker invariant: every existing item name ends up in the final
seen set. -/
lemma walkItems_items_seen (p : Project) (policy : DepPolicy) :
    ∀ (items : AList ServiceConfig) (seen : List String)
      (res : AList ServiceConfig × {s2 : List String // seen <:+ s2}),
      walkItems p policy items seen = .ok res →
      ∀ kv ∈ items, hasKeyA p.Services kv.1 = true → kv.1 ∈ res.2.1 := by
  intro items seen
  induction items, seen using walkItems.induct p policy
  next seen =>
    intro res heq kv hkv
    cases hkv
  next name svc rest seen hseen ih =>
    intro res heq kv hkv hkk
    simp only [walkItems, hseen] at heq
    rcases List.mem_cons.mp hkv with rfl | hkv2
    · exact res.2.2.subset hseen
    · exact ih res heq kv hkv2 hkk
  next name svc rest seen hseen hk deps hd e herr ih =>
    intro res heq
    rw [show deps = depsFor p policy svc from rfl] at hd
    simp only [walkItems, hseen, hk, hd, herr, dite_true, dite_false, ite_true,
      ite_false] at heq
    exact Except.noConfusion heq
  next name svc rest seen hseen hk deps hd tr s2 h2 hrec ih =>
    intro res heq kv hkv hkk
    rw [show deps = depsFor p policy svc from rfl] at hd
    simp only [walkItems, hseen, hk, hd, hrec, dite_true, dite_false, ite_true,
      ite_false] at heq
    cases heq
    rcases List.mem_cons.mp hkv with rfl | hkv2
    · exact h2.subset (List.mem_cons_self _ _)
    · exact ih (tr, ⟨s2, h2⟩) hrec kv hkv2 hkk
  next name svc rest seen hseen hk deps hd e hmiss =>
    intro res heq
    rw [show deps = depsFor p policy svc from rfl] at hd hmiss
    simp only [walkItems, hseen, hk, hd, hmiss, dite_true, dite_false, ite_true,
      ite_false, Bool.false_eq_true] at heq
    exact Except.noConfusion heq
  next name svc rest seen hseen hk deps hd hmiss e herr ih1 =>
    intro res heq
    rw [show deps = depsFor p policy svc from rfl] at hd hmiss herr
    simp only [walkItems, hseen, hk, hd, hmiss, herr, dite_true, dite_false,
      ite_true, ite_false, Bool.false_eq_true] at heq
    exact Except.noConfusion heq
  next name svc rest seen hseen hk deps hd hmiss tr1 s2 h2 hrec1 e herr ih1 ih2 =>
    intro res heq
    rw [show deps = depsFor p policy svc from rfl] at hd hmiss hrec1
    simp only [walkItems, hseen, hk, hd, hmiss, hrec1, herr, dite_true, dite_false,
      ite_true, ite_false, Bool.false_eq_true] at heq
    exact Except.noConfusion heq
  next name svc rest seen hseen hk deps hd hmiss tr1 s2 h2 hrec1 tr2 s3 h3 hrec2 ih1 ih2 =>
    intro res heq kv hkv hkk
    rw [show deps = depsFor p policy svc from rfl] at hd hmiss hrec1
    simp only [walkItems, hseen, hk, hd, hmiss, hrec1, hrec2, dite_true,
      dite_false, ite_true, ite_false, Bool.false_eq_true] at heq
    cases heq
    rcases List.mem_cons.mp hkv with rfl | hkv2
    · exact h3.subset (h2.subset (List.mem_cons_self _ _))
    · exact ih2 (tr2, ⟨s3, h3⟩) hrec2 kv hkv2 hkk
  next name svc rest seen hseen hk ih =>
    intro res heq kv hkv hkk
    simp only [walkItems, hseen, hk] at heq
    rcases List.mem_cons.mp hkv with rfl | hkv2
    · rw [hkk] at hk
      cases hk rfl
    · exact ih res heq kv hkv2 hkk

lemma foundOf_mem_names (p : Project) {names : List String}
    {kv : String × ServiceConfig} (h : kv ∈ foundOf p names)
    (hne : ¬ names.isEmpty = true) : kv.1 ∈ names := by
  rw [foundOf, if_neg hne] at h
  rcases List.mem_filterMap.mp h with ⟨n, hn, hmap⟩
  rcases Option.map_eq_some.mp hmap with ⟨s, _, heq⟩
  cases heq
  exact hn

lemma keysA_ne_nil {α : Type} {deps : AList α}
    (hd : ¬ deps.isEmpty = true) : ¬ (keysA deps).isEmpty = true := by
  cases deps with
  | nil => simp at hd
  | cons kv t => simp [keysA]

/-- Walker invariant: every existing dependency (per the policy) of a
visited service is in the final seen set. -/
lemma walkItems_visited_deps (p : Project) (policy : DepPolicy) :
    ∀ (items : AList ServiceConfig) (seen : List String)
      (res : AList ServiceConfig × {s2 : List String // seen <:+ s2}),
      walkItems p policy items seen = .ok res →
      ∀ kv ∈ res.1, ∀ dv ∈ depsFor p policy kv.2,
        hasKeyA p.Services dv.1 = true → dv.1 ∈ res.2.1 := by
  intro items seen
  induction items, seen using walkItems.induct p policy
  next seen =>
    intro res heq kv hkv
    simp only [walkItems] at heq
    cases heq
    cases hkv
  next name svc rest seen hseen ih =>
    intro res heq
    simp only [walkItems, hseen] at heq
    exact ih res heq
  next name svc rest seen hseen hk deps hd e herr ih =>
    intro res heq
    rw [show deps = depsFor p policy svc from rfl] at hd
    simp only [walkItems, hseen, hk, hd, herr, dite_true, dite_false, ite_true,
      ite_false] at heq
    exact Except.noConfusion heq
  next name svc rest seen hseen hk deps hd tr s2 h2 hrec ih =>
    intro res heq kv hkv dv hdv hkk
    rw [show deps = depsFor p policy svc from rfl] at hd
    simp only [walkItems, hseen, hk, hd, hrec, dite_true, dite_false, ite_true,
      ite_false] at heq
    cases heq
    rcases List.mem_cons.mp hkv with rfl | hkv2
    · simp only [ServiceConfig.deepCopy_id] at hdv
      rw [List.isEmpty_iff.mp hd] at hdv
      cases hdv
    · exact ih (tr, ⟨s2, h2⟩) hrec kv hkv2 dv hdv hkk
  next name svc rest seen hseen hk deps hd e hmiss =>
    intro res heq
    rw [show deps = depsFor p policy svc from rfl] at hd hmiss
    simp only [walkItems, hseen, hk, hd, hmiss, dite_true, dite_false, ite_true,
      ite_false, Bool.false_eq_true] at heq
    exact Except.noConfusion heq
  next name svc rest seen hseen hk deps hd hmiss e herr ih1 =>
    intro res heq
    rw [show deps = depsFor p policy svc from rfl] at hd hmiss herr
    simp only [walkItems, hseen, hk, hd, hmiss, herr, dite_true, dite_false,
      ite_true, ite_false, Bool.false_eq_true] at heq
    exact Except.noConfusion heq
  next name svc rest seen hseen hk deps hd hmiss tr1 s2 h2 hrec1 e herr ih1 ih2 =>
    intro res heq
    rw [show deps = depsFor p policy svc from rfl] at hd hmiss hrec1
    simp only [walkItems, hseen, hk, hd, hmiss, hrec1, herr, dite_true, dite_false,
      ite_true, ite_false, Bool.false_eq_true] at heq
    exact Except.noConfusion heq
  next name svc rest seen hseen hk deps hd hmiss tr1 s2 h2 hrec1 tr2 s3 h3 hrec2 ih1 ih2 =>
    intro res heq kv hkv dv hdv hkk
    rw [show deps = depsFor p policy svc from rfl] at hd hmiss hrec1
    simp only [walkItems, hseen, hk, hd, hmiss, hrec1, hrec2, dite_true,
      dite_false, ite_true, ite_false, Bool.false_eq_true] at heq
    cases heq
    simp only [List.mem_append, List.mem_cons] at hkv
    rcases hkv with hkv | hkv | hkv
    · exact h3.subset (ih1 (tr1, ⟨s2, h2⟩) hrec1 kv hkv dv hdv hkk)
    · cases hkv
      simp only [ServiceConfig.deepCopy_id] at hdv
      have hdv1 : dv.1 ∈ keysA (depsFor p policy svc) :=
        List.mem_map_of_mem Prod.fst hdv
      have hmemf : dv.1 ∈ (foundOf p (keysA (depsFor p policy svc))).map Prod.fst :=
        mem_foundOf p _ hdv1 hkk
      rcases List.mem_map.mp hmemf with ⟨kv2, hkv2, hfst⟩
      have := walkItems_items_seen p policy _ _ (tr1, ⟨s2, h2⟩) hrec1 kv2 hkv2
      rw [hfst] at this
      exact h3.subset (this hkk)
    · exact ih2 (tr2, ⟨s3, h3⟩) hrec2 kv hkv dv hdv hkk
  next name svc rest seen hseen hk ih =>
    intro res heq
    simp only [walkItems, hseen, hk] at heq
    exact ih res heq

/-- Walker invariant: on success, every missing dependency of a visited
service is a non-required edge — a required edge to a missing service
would have failed the walk. -/
lemma walkItems_visited_missing (p : Project) (policy : DepPolicy)
    (hn : NodupKeys p.Services)
    (hwfdeps : ∀ kv ∈ p.Services, NodupKeys (depsFor p policy kv.2)) :
    ∀ (items : AList ServiceConfig) (seen : List String)
      (res : AList ServiceConfig × {s2 : List String // seen <:+ s2}),
      walkItems p policy items seen = .ok res →
      (∀ kv ∈ items, lookupA p.Services kv.1 = some kv.2) →
      ∀ kv ∈ res.1, ∀ dv ∈ depsFor p policy kv.2,
        hasKeyA p.Services dv.1 = false → dv.2.Required = false := by
  intro items seen
  induction items, seen using walkItems.induct p policy
  next seen =>
    intro res heq hpre kv hkv
    simp only [walkItems] at heq
    cases heq
    cases hkv
  next name svc rest seen hseen ih =>
    intro res heq hpre
    simp only [walkItems, hseen] at heq
    exact ih res heq (fun kv hkv => hpre kv (List.mem_cons_of_mem _ hkv))
  next name svc rest seen hseen hk deps hd e herr ih =>
    intro res heq
    rw [show deps = depsFor p policy svc from rfl] at hd
    simp only [walkItems, hseen, hk, hd, herr, dite_true, dite_false, ite_true,
      ite_false] at heq
    exact Except.noConfusion heq
  next name svc rest seen hseen hk deps hd tr s2 h2 hrec ih =>
    intro res heq hpre kv hkv dv hdv hkk
    rw [show deps = depsFor p policy svc from rfl] at hd
    simp only [walkItems, hseen, hk, hd, hrec, dite_true, dite_false, ite_true,
      ite_false] at heq
    cases heq
    rcases List.mem_cons.mp hkv with rfl | hkv2
    · simp only [ServiceConfig.deepCopy_id] at hdv
      rw [List.isEmpty_iff.mp hd] at hdv
      cases hdv
    · exact ih (tr, ⟨s2, h2⟩) hrec
        (fun kv hkv => hpre kv (List.mem_cons_of_mem _ hkv)) kv hkv2 dv hdv hkk
  next name svc rest seen hseen hk deps hd e hmiss =>
    intro res heq
    rw [show deps = depsFor p policy svc from rfl] at hd hmiss
    simp only [walkItems, hseen, hk, hd, hmiss, dite_true, dite_false, ite_true,
      ite_false, Bool.false_eq_true] at heq
    exact Except.noConfusion heq
  next name svc rest seen hseen hk deps hd hmiss e herr ih1 =>
    intro res heq
    rw [show deps = depsFor p policy svc from rfl] at hd hmiss herr
    simp only [walkItems, hseen, hk, hd, hmiss, herr, dite_true, dite_false,
      ite_true, ite_false, Bool.false_eq_true] at heq
    exact Except.noConfusion heq
  next name svc rest seen hseen hk deps hd hmiss tr1 s2 h2 hrec1 e herr ih1 ih2 =>
    intro res heq
    rw [show deps = depsFor p policy svc from rfl] at hd hmiss hrec1
    simp only [walkItems, hseen, hk, hd, hmiss, hrec1, herr, dite_true, dite_false,
      ite_true, ite_false, Bool.false_eq_true] at heq
    exact Except.noConfusion heq
  next name svc rest seen hseen hk deps hd hmiss tr1 s2 h2 hrec1 tr2 s3 h3 hrec2 ih1 ih2 =>
    intro res heq hpre kv hkv dv hdv hkk
    rw [show deps = depsFor p policy svc from rfl] at hd hmiss hrec1
    simp only [walkItems, hseen, hk, hd, hmiss, hrec1, hrec2, dite_true,
      dite_false, ite_true, ite_false, Bool.false_eq_true] at heq
    cases heq
    simp only [List.mem_append, List.mem_cons] at hkv
    rcases hkv with hkv | hkv | hkv
    · exact ih1 (tr1, ⟨s2, h2⟩) hrec1
        (foundOf_lookup p hn _) kv hkv dv hdv hkk
    · cases hkv
      simp only [ServiceConfig.deepCopy_id] at hdv
      have hdv1 : dv.1 ∈ keysA (depsFor p policy svc) :=
        List.mem_map_of_mem Prod.fst hdv
      have hnf : dv.1 ∈ notFoundOf p (keysA (depsFor p policy svc)) :=
        mem_notFoundOf p _ hdv1 hkk
      rcases missingErr_none hmiss dv.1 hnf with ⟨d, hlk, hreq⟩
      have hsvc : (name, svc) ∈ p.Services :=
        lookupA_mem (hpre (name, svc) (List.mem_cons_self _ _))
      have hnd : NodupKeys (depsFor p policy svc) := hwfdeps (name, svc) hsvc
      have hlk2 : lookupA (depsFor p policy svc) dv.1 = some dv.2 :=
        mem_lookupA hnd hdv
      rw [hlk2] at hlk
      cases hlk
      exact hreq
    · exact ih2 (tr2, ⟨s3, h3⟩) hrec2
        (fun kv hkv => hpre kv (List.mem_cons_of_mem _ hkv)) kv hkv dv hdv hkk
  next name svc rest seen hseen hk ih =>
    intro res heq hpre
    simp only [walkItems, hseen, hk] at heq
    exact ih res heq (fun kv hkv => hpre kv (List.mem_cons_of_mem _ hkv))

/-- Walker invariant: the visited services stay inside any set `R` that
contains the items and is closed under existing dependency edges. -/
lemma walkItems_reach (p : Project) (policy : DepPolicy) (R : String → Prop)
    (hn : NodupKeys p.Services)
    (hclosed : ∀ n s, R n → lookupA p.Services n = some s →
      ∀ dv ∈ depsFor p policy s, hasKeyA p.Services dv.1 = true → R dv.1) :
    ∀ (items : AList ServiceConfig) (seen : List String)
      (res : AList ServiceConfig × {s2 : List String // seen <:+ s2}),
      walkItems p policy items seen = .ok res →
      (∀ kv ∈ items, lookupA p.Services kv.1 = some kv.2) →
      (∀ kv ∈ items, R kv.1) →
      ∀ kv ∈ res.1, R kv.1 := by
  intro items seen
  induction items, seen using walkItems.induct p policy
  next seen =>
    intro res heq hpre hr kv hkv
    simp only [walkItems] at heq
    cases heq
    cases hkv
  next name svc rest seen hseen ih =>
    intro res heq hpre hr
    simp only [walkItems, hseen] at heq
    exact ih res heq (fun kv hkv => hpre kv (List.mem_cons_of_mem _ hkv))
      (fun kv hkv => hr kv (List.mem_cons_of_mem _ hkv))
  next name svc rest seen hseen hk deps hd e herr ih =>
    intro res heq
    rw [show deps = depsFor p policy svc from rfl] at hd
    simp only [walkItems, hseen, hk, hd, herr, dite_true, dite_false, ite_true,
      ite_false] at heq
    exact Except.noConfusion heq
  next name svc rest seen hseen hk deps hd tr s2 h2 hrec ih =>
    intro res heq hpre hr kv hkv
    rw [show deps = depsFor p policy svc from rfl] at hd
    simp only [walkItems, hseen, hk, hd, hrec, dite_true, dite_false, ite_true,
      ite_false] at heq
    cases heq
    rcases List.mem_cons.mp hkv with rfl | hkv2
    · exact hr (name, svc) (List.mem_cons_self _ _)
    · exact ih (tr, ⟨s2, h2⟩) hrec
        (fun kv hkv => hpre kv (List.mem_cons_of_mem _ hkv))
        (fun kv hkv => hr kv (List.mem_cons_of_mem _ hkv)) kv hkv2
  next name svc rest seen hseen hk deps hd e hmiss =>
    intro res heq
    rw [show deps = depsFor p policy svc from rfl] at hd hmiss
    simp only [walkItems, hseen, hk, hd, hmiss, dite_true, dite_false, ite_true,
      ite_false, Bool.false_eq_true] at heq
    exact Except.noConfusion heq
  next name svc rest seen hseen hk deps hd hmiss e herr ih1 =>
    intro res heq
    rw [show deps = depsFor p policy svc from rfl] at hd hmiss herr
    simp only [walkItems, hseen, hk, hd, hmiss, herr, dite_true, dite_false,
      ite_true, ite_false, Bool.false_eq_true] at heq
    exact Except.noConfusion heq
  next name svc rest seen hseen hk deps hd hmiss tr1 s2 h2 hrec1 e herr ih1 ih2 =>
    intro res heq
    rw [show deps = depsFor p policy svc from rfl] at hd hmiss hrec1
    simp only [walkItems, hseen, hk, hd, hmiss, hrec1, herr, dite_true, dite_false,
      ite_true, ite_false, Bool.false_eq_true] at heq
    exact Except.noConfusion heq
  next name svc rest seen hseen hk deps hd hmiss tr1 s2 h2 hrec1 tr2 s3 h3 hrec2 ih1 ih2 =>
    intro res heq hpre hr kv hkv
    rw [show deps = depsFor p policy svc from rfl] at hd hmiss hrec1
    simp only [walkItems, hseen, hk, hd, hmiss, hrec1, hrec2, dite_true,
      dite_false, ite_true, ite_false, Bool.false_eq_true] at heq
    cases heq
    have hrname : R name := hr (name, svc) (List.mem_cons_self _ _)
    have hlname : lookupA p.Services name = some svc :=
      hpre (name, svc) (List.mem_cons_self _ _)
    have hinnerR : ∀ kv2 ∈ foundOf p (keysA (depsFor p policy svc)), R kv2.1 := by
      intro kv2 hkv2
      have hmemn : kv2.1 ∈ keysA (depsFor p policy svc) :=
        foundOf_mem_names p hkv2 (keysA_ne_nil hd)
      rcases List.mem_map.mp hmemn with ⟨dv, hdv, hfst⟩
      have hkk2 : hasKeyA p.Services kv2.1 = true := by
        rw [hasKeyA, foundOf_lookup p hn _ kv2 hkv2]
        rfl
      rw [← hfst] at hkk2 ⊢
      exact hclosed name svc hrname hlname dv hdv hkk2
    simp only [List.mem_append, List.mem_cons] at hkv
    rcases hkv with hkv | hkv | hkv
    · exact ih1 (tr1, ⟨s2, h2⟩) hrec1 (foundOf_lookup p hn _) hinnerR kv hkv
    · cases hkv
      exact hrname
    · exact ih2 (tr2, ⟨s3, h3⟩) hrec2
        (fun kv hkv => hpre kv (List.mem_cons_of_mem _ hkv))
        (fun kv hkv => hr kv (List.mem_cons_of_mem _ hkv)) kv hkv
  next name svc rest seen hseen hk ih =>
    intro res heq hpre hr
    simp only [walkItems, hseen, hk] at heq
    exact ih res heq (fun kv hkv => hpre kv (List.mem_cons_of_mem _ hkv))
      (fun kv hkv => hr kv (List.mem_cons_of_mem _ hkv))

lemma notFoundOf_sub (p : Project) (names : List String) {m : String}
    (hmem : m ∈ notFoundOf p names) : m ∈ names := by
  rw [notFoundOf] at hmem
  by_cases he : names.isEmpty
  · rw [if_pos he] at hmem
    cases hmem
  · rw [if_neg he] at hmem
    exact (List.mem_filter.mp hmem).1

lemma missingErr_some_req {nf : List String} {deps : AList ServiceDependency}
    {e : String} (h : missingErr nf deps = some e) :
    ∃ m, m ∈ nf ∧
      (match lookupA deps m with
       | none => true
       | some d => d.Required) = true := by
  rw [missingErr] at h
  rcases Option.map_eq_some.mp h with ⟨m, hfind, _⟩
  have hp := List.find?_some hfind
  exact ⟨m, List.mem_of_find?_eq_some hfind, hp⟩

/-- Walker invariant: the walk succeeds when the items are stored
services inside a dependency-closed set `R` in which no service has a
required edge to a missing service. -/
lemma walkItems_success (p : Project) (policy : DepPolicy) (R : String → Prop)
    (hn : NodupKeys p.Services)
    (hwfdeps : ∀ kv ∈ p.Services, NodupKeys (depsFor p policy kv.2))
    (hclosed : ∀ n s, R n → lookupA p.Services n = some s →
      ∀ dv ∈ depsFor p policy s, hasKeyA p.Services dv.1 = true → R dv.1)
    (hreq : ∀ n s, R n → lookupA p.Services n = some s →
      ∀ dv ∈ depsFor p policy s, hasKeyA p.Services dv.1 = false →
        dv.2.Required = false) :
    ∀ (items : AList ServiceConfig) (seen : List String),
      (∀ kv ∈ items, lookupA p.Services kv.1 = some kv.2) →
      (∀ kv ∈ items, R kv.1) →
      ∃ res, walkItems p policy items seen = .ok res := by
  intro items seen
  induction items, seen using walkItems.induct p policy
  next seen =>
    intro hpre hr
    exact ⟨([], ⟨seen, List.suffix_refl seen⟩), by simp only [walkItems]⟩
  next name svc rest seen hseen ih =>
    intro hpre hr
    rcases ih (fun kv hkv => hpre kv (List.mem_cons_of_mem _ hkv))
      (fun kv hkv => hr kv (List.mem_cons_of_mem _ hkv)) with ⟨res, hres⟩
    refine ⟨res, ?_⟩
    simp only [walkItems, hseen, dite_true, dite_false]
    exact hres
  next name svc rest seen hseen hk deps hd e herr ih =>
    intro hpre hr
    rcases ih (fun kv hkv => hpre kv (List.mem_cons_of_mem _ hkv))
      (fun kv hkv => hr kv (List.mem_cons_of_mem _ hkv)) with ⟨res, hres⟩
    rw [herr] at hres
    cases hres
  next name svc rest seen hseen hk deps hd tr s2 h2 hrec ih =>
    intro hpre hr
    rw [show deps = depsFor p policy svc from rfl] at hd
    refine ⟨((name, svc.deepCopy) :: tr,
      ⟨s2, (List.suffix_cons name seen).trans h2⟩), ?_⟩
    simp only [walkItems, hseen, hk, hd, hrec, dite_true, dite_false, ite_true,
      ite_false]
  next name svc rest seen hseen hk deps hd e hmiss =>
    intro hpre hr
    rw [show deps = depsFor p policy svc from rfl] at hd hmiss
    exfalso
    rcases missingErr_some_req hmiss with ⟨m, hmnf, hpred⟩
    have hkm : hasKeyA p.Services m = false := notFoundOf_not_hasKey p _ hmnf
    have hmk : m ∈ keysA (depsFor p policy svc) := notFoundOf_sub p _ hmnf
    rcases List.mem_map.mp hmk with ⟨dv, hdv, hfst⟩
    have hsvc : (name, svc) ∈ p.Services :=
      lookupA_mem (hpre (name, svc) (List.mem_cons_self _ _))
    have hnd : NodupKeys (depsFor p policy svc) := hwfdeps (name, svc) hsvc
    have hlk : lookupA (depsFor p policy svc) dv.1 = some dv.2 :=
      mem_lookupA hnd hdv
    have hreq2 : dv.2.Required = false :=
      hreq name svc (hr (name, svc) (List.mem_cons_self _ _))
        (hpre (name, svc) (List.mem_cons_self _ _)) dv hdv (by rw [hfst]; exact hkm)
    rw [← hfst, hlk] at hpred
    simp only [hreq2] at hpred
    cases hpred
  next name svc rest seen hseen hk deps hd hmiss e herr ih1 =>
    intro hpre hr
    rw [show deps = depsFor p policy svc from rfl] at hd hmiss herr
    exfalso
    have hrname : R name := hr (name, svc) (List.mem_cons_self _ _)
    have hlname : lookupA p.Services name = some svc :=
      hpre (name, svc) (List.mem_cons_self _ _)
    have hinnerR : ∀ kv2 ∈ foundOf p (keysA (depsFor p policy svc)), R kv2.1 := by
      intro kv2 hkv2
      have hmemn : kv2.1 ∈ keysA (depsFor p policy svc) :=
        foundOf_mem_names p hkv2 (keysA_ne_nil hd)
      rcases List.mem_map.mp hmemn with ⟨dv, hdv, hfst⟩
      have hkk2 : hasKeyA p.Services kv2.1 = true := by
        rw [hasKeyA, foundOf_lookup p hn _ kv2 hkv2]
        rfl
      rw [← hfst] at hkk2 ⊢
      exact hclosed name svc hrname hlname dv hdv hkk2
    rcases ih1 (foundOf_lookup p hn _) hinnerR with ⟨res, hres⟩
    rw [herr] at hres
    cases hres
  next name svc rest seen hseen hk deps hd hmiss tr1 s2 h2 hrec1 e herr ih1 ih2 =>
    intro hpre hr
    rw [show deps = depsFor p policy svc from rfl] at hd hmiss hrec1
    exfalso
    rcases ih2 (fun kv hkv => hpre kv (List.mem_cons_of_mem _ hkv))
      (fun kv hkv => hr kv (List.mem_cons_of_mem _ hkv)) with ⟨res, hres⟩
    rw [herr] at hres
    cases hres
  next name svc rest seen hseen hk deps hd hmiss tr1 s2 h2 hrec1 tr2 s3 h3 hrec2 ih1 ih2 =>
    intro hpre hr
    rw [show deps = depsFor p policy svc from rfl] at hd hmiss hrec1
    refine ⟨(tr1 ++ (name, svc.deepCopy) :: tr2,
      ⟨s3, ((List.suffix_cons name seen).trans h2).trans h3⟩), ?_⟩
    simp only [walkItems, hseen, hk, hd, hmiss, hrec1, hrec2, dite_true,
      dite_false, ite_true, ite_false, Bool.false_eq_true]
  next name svc rest seen hseen hk ih =>
    intro hpre hr
    rcases ih (fun kv hkv => hpre kv (List.mem_cons_of_mem _ hkv))
      (fun kv hkv => hr kv (List.mem_cons_of_mem _ hkv)) with ⟨res, hres⟩
    refine ⟨res, ?_⟩
    simp only [walkItems, hseen, hk, dite_true, dite_false, Bool.false_eq_true,
      ite_false, ite_true]
    exact hres

/-- Walker invariant: every error the walk can produce is a
"no such service" error naming a service absent from the project. -/
lemma walkItems_error_form (p : Project) (policy : DepPolicy) :
    ∀ (items : AList ServiceConfig) (seen : List String) (e : String),
      walkItems p policy items seen = .error e →
      ∃ m, e = "no such service: " ++ m ∧ hasKeyA p.Services m = false := by
  intro items seen
  induction items, seen using walkItems.induct p policy
  next seen =>
    intro e heq
    simp only [walkItems] at heq
    exact Except.noConfusion heq
  next name svc rest seen hseen ih =>
    intro e heq
    simp only [walkItems, hseen, dite_true, dite_false] at heq
    exact ih e heq
  next name svc rest seen hseen hk deps hd e0 herr ih =>
    intro e heq
    rw [show deps = depsFor p policy svc from rfl] at hd
    simp only [walkItems, hseen, hk, hd, herr, dite_true, dite_false, ite_true,
      ite_false] at heq
    cases heq
    exact ih e0 herr
  next name svc rest seen hseen hk deps hd tr s2 h2 hrec ih =>
    intro e heq
    rw [show deps = depsFor p policy svc from rfl] at hd
    simp only [walkItems, hseen, hk, hd, hrec, dite_true, dite_false, ite_true,
      ite_false] at heq
    exact Except.noConfusion heq
  next name svc rest seen hseen hk deps hd e0 hmiss =>
    intro e heq
    rw [show deps = depsFor p policy svc from rfl] at hd hmiss
    simp only [walkItems, hseen, hk, hd, hmiss, dite_true, dite_false, ite_true,
      ite_false, Bool.false_eq_true] at heq
    cases heq
    rcases missingErr_some hmiss with ⟨m, hmnf, heqe⟩
    exact ⟨m, heqe, notFoundOf_not_hasKey p _ hmnf⟩
  next name svc rest seen hseen hk deps hd hmiss e0 herr ih1 =>
    intro e heq
    rw [show deps = depsFor p policy svc from rfl] at hd hmiss herr
    simp only [walkItems, hseen, hk, hd, hmiss, herr, dite_true, dite_false,
      ite_true, ite_false, Bool.false_eq_true] at heq
    cases heq
    exact ih1 e0 herr
  next name svc rest seen hseen hk deps hd hmiss tr1 s2 h2 hrec1 e0 herr ih1 ih2 =>
    intro e heq
    rw [show deps = depsFor p policy svc from rfl] at hd hmiss hrec1
    simp only [walkItems, hseen, hk, hd, hmiss, hrec1, herr, dite_true, dite_false,
      ite_true, ite_false, Bool.false_eq_true] at heq
    cases heq
    exact ih2 e0 herr
  next name svc rest seen hseen hk deps hd hmiss tr1 s2 h2 hrec1 tr2 s3 h3 hrec2 ih1 ih2 =>
    intro e heq
    rw [show deps = depsFor p policy svc from rfl] at hd hmiss hrec1
    simp only [walkItems, hseen, hk, hd, hmiss, hrec1, hrec2, dite_true,
      dite_false, ite_true, ite_false, Bool.false_eq_true] at heq
    exact Except.noConfusion heq
  next name svc rest seen hseen hk ih =>
    intro e heq
    simp only [walkItems, hseen, hk, dite_true, dite_false, Bool.false_eq_true,
      ite_false, ite_true] at heq
    exact ih e heq

/-! ## Reachability -/

/-- One walk edge under a policy: from a stored service `a` to an
existing service `b` named in `a`'s dependency map for that policy. -/
def EdgeTo (p : Project) (policy : DepPolicy) (a b : String) : Prop :=
  ∃ sa, lookupA p.Services a = some sa ∧
    (∃ dv ∈ depsFor p policy sa, dv.1 = b) ∧ hasKeyA p.Services b = true

/-- The services a `ForEachService names` walk covers: the requested
existing names (every service when `names` is empty), closed under
existing dependency edges of the policy. -/
inductive Reaches (p : Project) (policy : DepPolicy) (names : List String) :
    String → Prop
  | base {n : String} (hmem : n ∈ names) (hk : hasKeyA p.Services n = true) :
      Reaches p policy names n
  | all {n : String} (hempty : names = []) (hk : n ∈ keysA p.Services) :
      Reaches p policy names n
  | step {a b : String} (ha : Reaches p policy names a)
      (hedge : EdgeTo p policy a b) : Reaches p policy names b

lemma reaches_hasKey {p : Project} {policy : DepPolicy} {names : List String}
    {x : String} (h : Reaches p policy names x) :
    hasKeyA p.Services x = true := by
  induction h with
  | base _ hk => assumption
  | all _ hk => exact hasKeyA_iff.mpr hk
  | step _ hedge _ =>
    obtain ⟨sa, _, _, hk⟩ := hedge
    exact hk

lemma foundOf_reaches (p : Project) (policy : DepPolicy)
    (hn : NodupKeys p.Services) (names : List String) :
    ∀ kv ∈ foundOf p names, Reaches p policy names kv.1 := by
  intro kv hkv
  by_cases he : names.isEmpty
  · have hkeys : kv.1 ∈ keysA p.Services := by
      rw [foundOf, if_pos he] at hkv
      exact List.mem_map_of_mem Prod.fst hkv
    exact Reaches.all (List.isEmpty_iff.mp he) hkeys
  · refine Reaches.base (foundOf_mem_names p hkv he) ?_
    rw [hasKeyA, foundOf_lookup p hn names kv hkv]
    rfl

lemma notFoundOf_nil (p : Project) (names : List String)
    (h : ∀ n ∈ names, hasKeyA p.Services n = true) :
    notFoundOf p names = [] := by
  rw [notFoundOf]
  by_cases he : names.isEmpty
  · rw [if_pos he]
  · rw [if_neg he]
    rw [List.filter_eq_nil]
    intro n hn
    simp [h n hn]

lemma missingErr_nil_deps (nf : List String) :
    missingErr nf [] = none ↔ nf = [] := by
  cases nf with
  | nil => simp [missingErr]
  | cons a t =>
    simp only [missingErr, List.find?]
    rw [show lookupA ([] : AList ServiceDependency) a = none from rfl]
    simp

/-- Inversion of a successful `ForEachService` run. -/
lemma forEachService_ok {p : Project} {policy : DepPolicy}
    {names : List String} {tr : AList ServiceConfig}
    (h : p.ForEachService names policy = .ok tr) :
    ∃ (s2 : List String) (hsub : ([] : List String) <:+ s2),
      missingErr (notFoundOf p names) [] = none ∧
      walkItems p policy (foundOf p names) [] = .ok (tr, ⟨s2, hsub⟩) := by
  rw [Project.ForEachService, withServices] at h
  rcases hm : missingErr (notFoundOf p names) [] with _ | e
  · rw [hm] at h
    rcases hw : walkItems p policy (foundOf p names) [] with e | pr
    · rw [hw] at h
      simp [Except.map] at h
    · rcases pr with ⟨tr0, s2, hsub⟩
      rw [hw] at h
      simp only [Except.map] at h
      cases h
      exact ⟨s2, hsub, rfl, rfl⟩
  · rw [hm] at h
    simp [Except.map] at h

/-- Inversion of a failed `ForEachService` run. -/
lemma forEachService_error {p : Project} {policy : DepPolicy}
    {names : List String} {e : String}
    (h : p.ForEachService names policy = .error e) :
    missingErr (notFoundOf p names) [] = some e ∨
      (missingErr (notFoundOf p names) [] = none ∧
        walkItems p policy (foundOf p names) [] = .error e) := by
  rw [Project.ForEachService, withServices] at h
  rcases hm : missingErr (notFoundOf p names) [] with _ | e0
  · rw [hm] at h
    rcases hw : walkItems p policy (foundOf p names) [] with e1 | pr
    · rw [hw] at h
      simp only [Except.map] at h
      cases h
      exact Or.inr ⟨rfl, rfl⟩
    · rcases pr with ⟨tr0, s2, hsub⟩
      rw [hw] at h
      simp [Except.map] at h
  · rw [hm] at h
    simp only [Except.map] at h
    cases h
    exact Or.inl rfl

/-- On success, the names of the visit sequence are exactly the
reachable services. -/
lemma forEachService_trace_iff {p : Project} {policy : DepPolicy}
    {names : List String} {tr : AList ServiceConfig}
    (hn : NodupKeys p.Services)
    (h : p.ForEachService names policy = .ok tr) :
    ∀ x, x ∈ tr.map Prod.fst ↔ Reaches p policy names x := by
  rcases forEachService_ok h with ⟨s2, hsub, hmiss, hw⟩
  intro x
  constructor
  · intro hx
    rcases List.mem_map.mp hx with ⟨kv, hkv, hfst⟩
    have := walkItems_reach p policy (Reaches p policy names) hn
      (fun n s hr hl dv hdv hkk =>
        Reaches.step hr ⟨s, hl, ⟨dv, hdv, rfl⟩, hkk⟩)
      (foundOf p names) [] (tr, ⟨s2, hsub⟩) hw
      (foundOf_lookup p hn names) (foundOf_reaches p policy hn names) kv hkv
    rw [← hfst]
    exact this
  · intro hx
    have hseen := walkItems_seen p policy (foundOf p names) [] (tr, ⟨s2, hsub⟩) hw
    induction hx with
    | base hmem hk =>
      rename_i n
      have hf := mem_foundOf p names hmem hk
      rcases List.mem_map.mp hf with ⟨kv, hkv, hfst⟩
      have hs := walkItems_items_seen p policy _ _ (tr, ⟨s2, hsub⟩) hw kv hkv
        (by rw [hfst]; exact hk)
      have := (hseen.1 kv.1).mp hs
      rcases this with hin | hin
      · rw [← hfst]; exact hin
      · cases hin
    | all hempty hk =>
      rename_i n
      subst hempty
      have hf := mem_foundOf_all p hk
      rcases List.mem_map.mp hf with ⟨kv, hkv, hfst⟩
      have hs := walkItems_items_seen p policy _ _ (tr, ⟨s2, hsub⟩) hw kv hkv
        (by rw [hfst]; exact hasKeyA_iff.mpr hk)
      have := (hseen.1 kv.1).mp hs
      rcases this with hin | hin
      · rw [← hfst]; exact hin
      · cases hin
    | step ha hedge iha =>
      rename_i a b
      rcases hedge with ⟨sa, hla, ⟨dv, hdv, hfst⟩, hkb⟩
      rcases List.mem_map.mp iha with ⟨kva, hkva, hfsta⟩
      have hlka := walkItems_lookup p policy hn _ _ (tr, ⟨s2, hsub⟩) hw
        (foundOf_lookup p hn names) kva hkva
      rw [hfsta, hla] at hlka
      injection hlka with hv
      rw [hv] at hdv
      have hdeps := walkItems_visited_deps p policy _ _ (tr, ⟨s2, hsub⟩) hw
        kva hkva dv hdv (by rw [hfst]; exact hkb)
      rw [hfst] at hdeps
      rcases (hseen.1 b).mp hdeps with hin | hin
      · exact hin
      · cases hin

/-! ## Claim C4 -/

/-- C4: for every project and name list, `ForEachService` succeeds iff
every directly requested name exists and no service reached by the walk
has a required dependency edge to an absent name — an absent name behind
a non-required edge is silently skipped; and every failure is a
"no such service" error naming an absent service. -/
theorem C4_forEachService_missing_names (p : Project) (names : List String)
    (policy : DepPolicy) (hwf : ProjWF p) :
    ((∃ tr, p.ForEachService names policy = .ok tr) ↔
      ((∀ n ∈ names, hasKeyA p.Services n = true) ∧
       (∀ x sx, Reaches p policy names x → lookupA p.Services x = some sx →
         ∀ dv ∈ depsFor p policy sx, hasKeyA p.Services dv.1 = false →
           dv.2.Required = false))) ∧
    (∀ e, p.ForEachService names policy = .error e →
      ∃ m, e = "no such service: " ++ m ∧ hasKeyA p.Services m = false) := by
  obtain ⟨hn, hnd, hdep⟩ := hwf
  have hwfdeps : ∀ kv ∈ p.Services, NodupKeys (depsFor p policy kv.2) :=
    fun kv hkv => nodupKeys_depsFor p policy (hdep kv hkv)
  constructor
  · constructor
    · rintro ⟨tr, htr⟩
      rcases forEachService_ok htr with ⟨s2, hsub, hmiss, hw⟩
      constructor
      · intro n hnmem
        by_cases hc : hasKeyA p.Services n = true
        · exact hc
        · exfalso
          have hkf : hasKeyA p.Services n = false := by
            cases h : hasKeyA p.Services n
            · rfl
            · exact absurd h hc
          have hmem2 := mem_notFoundOf p names hnmem hkf
          rw [(missingErr_nil_deps _).mp hmiss] at hmem2
          cases hmem2
      · intro x sx hreach hlx dv hdv hkf
        have hx : x ∈ tr.map Prod.fst :=
          (forEachService_trace_iff hn htr x).mpr hreach
        rcases List.mem_map.mp hx with ⟨kv, hkv, hfst⟩
        have hlk := walkItems_lookup p policy hn _ _ (tr, ⟨s2, hsub⟩) hw
          (foundOf_lookup p hn names) kv hkv
        rw [hfst, hlx] at hlk
        injection hlk with hv
        rw [hv] at hdv
        exact walkItems_visited_missing p policy hn hwfdeps _ _ (tr, ⟨s2, hsub⟩)
          hw (foundOf_lookup p hn names) kv hkv dv hdv hkf
    · rintro ⟨hall, hreq⟩
      have hsucc := walkItems_success p policy (Reaches p policy names) hn hwfdeps
        (fun n s hr hl dv hdv hkk => Reaches.step hr ⟨s, hl, ⟨dv, hdv, rfl⟩, hkk⟩)
        hreq (foundOf p names) [] (foundOf_lookup p hn names)
        (foundOf_reaches p policy hn names)
      rcases hsucc with ⟨⟨tr0, s2v⟩, hres⟩
      refine ⟨tr0, ?_⟩
      have hmn : missingErr (notFoundOf p names) [] = none :=
        (missingErr_nil_deps _).mpr (notFoundOf_nil p names hall)
      rw [Project.ForEachService, withServices, hmn, hres]
      rfl
  · intro e he
    rcases forEachService_error he with hm | ⟨_, hw⟩
    · rcases missingErr_some hm with ⟨m, hmnf, heq⟩
      exact ⟨m, heq, notFoundOf_not_hasKey p _ hmnf⟩
    · exact walkItems_error_form p policy _ _ e hw

/-! ## Visit order -/

/-- `a` occurs strictly before `b` in `l`. -/
def beforeL (l : List String) (a b : String) : Prop :=
  ∃ i j, i < j ∧ l.get? i = some a ∧ l.get? j = some b

/-- A topological rank certifying that the dependency graph of the
policy, restricted to existing services, is acyclic. -/
def RankedAcyclic (p : Project) (policy : DepPolicy) (rank : String → Nat) : Prop :=
  ∀ kv ∈ p.Services, ∀ dv ∈ depsFor p policy kv.2,
    hasKeyA p.Services dv.1 = true → rank dv.1 < rank kv.1

lemma beforeL_mem_left {l : List String} {a b : String}
    (h : beforeL l a b) : a ∈ l := by
  rcases h with ⟨i, j, _, ha, _⟩
  exact List.get?_mem ha

lemma beforeL_mem_right {l : List String} {a b : String}
    (h : beforeL l a b) : b ∈ l := by
  rcases h with ⟨i, j, _, _, hb⟩
  exact List.get?_mem hb

lemma beforeL_append_left {l1 l2 : List String} {a b : String}
    (h : beforeL l1 a b) : beforeL (l1 ++ l2) a b := by
  rcases h with ⟨i, j, hij, ha, hb⟩
  have hi : i < l1.length := (List.get?_eq_some.mp ha).1
  have hj : j < l1.length := (List.get?_eq_some.mp hb).1
  exact ⟨i, j, hij, by rw [List.get?_append hi]; exact ha,
    by rw [List.get?_append hj]; exact hb⟩

lemma beforeL_append_right {l1 l2 : List String} {a b : String}
    (h : beforeL l2 a b) : beforeL (l1 ++ l2) a b := by
  rcases h with ⟨i, j, hij, ha, hb⟩
  refine ⟨l1.length + i, l1.length + j, by omega, ?_, ?_⟩
  · rw [List.get?_append_right (by omega)]
    simpa using ha
  · rw [List.get?_append_right (by omega)]
    simpa using hb

lemma beforeL_cross {l1 l2 : List String} {a b : String}
    (ha : a ∈ l1) (hb : b ∈ l2) : beforeL (l1 ++ l2) a b := by
  rcases List.get?_of_mem ha with ⟨i, hi⟩
  rcases List.get?_of_mem hb with ⟨j, hj⟩
  have hi2 : i < l1.length := (List.get?_eq_some.mp hi).1
  refine ⟨i, l1.length + j, by omega, ?_, ?_⟩
  · rw [List.get?_append hi2]
    exact hi
  · rw [List.get?_append_right (by omega)]
    simpa using hj

lemma beforeL_cons {x : String} {l : List String} {a b : String}
    (h : beforeL l a b) : beforeL (x :: l) a b := by
  have := @beforeL_append_right [x] l a b h
  simpa using this

lemma beforeL_cons_self {x : String} {l : List String} {b : String}
    (hb : b ∈ l) : beforeL (x :: l) x b := by
  have := @beforeL_cross [x] l x b (List.mem_singleton.mpr rfl) hb
  simpa using this

lemma beforeL_trans {l : List String} (hnd : l.Nodup) {a b c : String}
    (h1 : beforeL l a b) (h2 : beforeL l b c) : beforeL l a c := by
  rcases h1 with ⟨i, j, hij, ha, hb⟩
  rcases h2 with ⟨i2, j2, hij2, hb2, hc⟩
  have hj : j < l.length := (List.get?_eq_some.mp hb).1
  have : j = i2 := List.get?_inj hj hnd (by rw [hb, hb2])
  exact ⟨i, j2, by omega, ha, hc⟩

lemma rank_of_edge {p : Project} {policy : DepPolicy} {rank : String → Nat}
    (hrank : RankedAcyclic p policy rank) {a b : String}
    (h : EdgeTo p policy a b) : rank b < rank a := by
  rcases h with ⟨sa, hla, ⟨dv, hdv, hfst⟩, hkb⟩
  have hmem : (a, sa) ∈ p.Services := lookupA_mem hla
  have := hrank (a, sa) hmem dv hdv (by rw [hfst]; exact hkb)
  rw [hfst] at this
  exact this

lemma rank_of_transGen {p : Project} {policy : DepPolicy} {rank : String → Nat}
    (hrank : RankedAcyclic p policy rank) {a b : String}
    (h : Relation.TransGen (EdgeTo p policy) a b) : rank b < rank a := by
  induction h with
  | single h1 => exact rank_of_edge hrank h1
  | tail _ h1 ih => exact lt_trans (rank_of_edge hrank h1) ih

lemma no_self_reach {p : Project} {policy : DepPolicy} {rank : String → Nat}
    (hrank : RankedAcyclic p policy rank) {a : String} :
    ¬ Relation.TransGen (EdgeTo p policy) a a := by
  intro h
  exact lt_irrefl _ (rank_of_transGen hrank h)

/-- The walker visits every existing dependency of a visited service
either earlier in the visit sequence or it was already seen when the
call started — given an acyclicity certificate. -/
lemma walkItems_order (p : Project) (policy : DepPolicy) (rank : String → Nat)
    (hn : NodupKeys p.Services) (hrank : RankedAcyclic p policy rank) :
    ∀ (items : AList ServiceConfig) (seen : List String)
      (res : AList ServiceConfig × {s2 : List String // seen <:+ s2}),
      walkItems p policy items seen = .ok res →
      (∀ kv ∈ items, lookupA p.Services kv.1 = some kv.2) →
      ∀ kv ∈ res.1, ∀ dv ∈ depsFor p policy kv.2,
        hasKeyA p.Services dv.1 = true →
        dv.1 ∈ seen ∨ beforeL (res.1.map Prod.fst) dv.1 kv.1 := by
  intro items seen
  induction items, seen using walkItems.induct p policy
  next seen =>
    intro res heq hpre kv hkv
    simp only [walkItems] at heq
    cases heq
    cases hkv
  next name svc rest seen hseen ih =>
    intro res heq hpre
    simp only [walkItems, hseen] at heq
    exact ih res heq (fun kv hkv => hpre kv (List.mem_cons_of_mem _ hkv))
  next name svc rest seen hseen hk deps hd e herr ih =>
    intro res heq
    rw [show deps = depsFor p policy svc from rfl] at hd
    simp only [walkItems, hseen, hk, hd, herr, dite_true, dite_false, ite_true,
      ite_false] at heq
    exact Except.noConfusion heq
  next name svc rest seen hseen hk deps hd tr s2 h2 hrec ih =>
    intro res heq hpre kv hkv dv hdv hkk
    rw [show deps = depsFor p policy svc from rfl] at hd
    simp only [walkItems, hseen, hk, hd, hrec, dite_true, dite_false, ite_true,
      ite_false] at heq
    cases heq
    rcases List.mem_cons.mp hkv with rfl | hkv2
    · simp only [ServiceConfig.deepCopy_id] at hdv
      rw [List.isEmpty_iff.mp hd] at hdv
      cases hdv
    · rcases ih (tr, ⟨s2, h2⟩) hrec
        (fun kv hkv => hpre kv (List.mem_cons_of_mem _ hkv)) kv hkv2 dv hdv hkk
        with hin | hbefore
      · rcases List.mem_cons.mp hin with rfl | hin2
        · right
          refine beforeL_cons_self ?_
          exact List.mem_map_of_mem Prod.fst hkv2
        · left
          exact hin2
      · right
        simp only [List.map_cons]
        exact beforeL_cons hbefore
  next name svc rest seen hseen hk deps hd e hmiss =>
    intro res heq
    rw [show deps = depsFor p policy svc from rfl] at hd hmiss
    simp only [walkItems, hseen, hk, hd, hmiss, dite_true, dite_false, ite_true,
      ite_false, Bool.false_eq_true] at heq
    exact Except.noConfusion heq
  next name svc rest seen hseen hk deps hd hmiss e herr ih1 =>
    intro res heq
    rw [show deps = depsFor p policy svc from rfl] at hd hmiss herr
    simp only [walkItems, hseen, hk, hd, hmiss, herr, dite_true, dite_false,
      ite_true, ite_false, Bool.false_eq_true] at heq
    exact Except.noConfusion heq
  next name svc rest seen hseen hk deps hd hmiss tr1 s2 h2 hrec1 e herr ih1 ih2 =>
    intro res heq
    rw [show deps = depsFor p policy svc from rfl] at hd hmiss hrec1
    simp only [walkItems, hseen, hk, hd, hmiss, hrec1, herr, dite_true, dite_false,
      ite_true, ite_false, Bool.false_eq_true] at heq
    exact Except.noConfusion heq
  next name svc rest seen hseen hk deps hd hmiss tr1 s2 h2 hrec1 tr2 s3 h3 hrec2 ih1 ih2 =>
    intro res heq hpre kv hkv dv hdv hkk
    rw [show deps = depsFor p policy svc from rfl] at hd hmiss hrec1
    simp only [walkItems, hseen, hk, hd, hmiss, hrec1, hrec2, dite_true,
      dite_false, ite_true, ite_false, Bool.false_eq_true] at heq
    cases heq
    have hlname : lookupA p.Services name = some svc :=
      hpre (name, svc) (List.mem_cons_self _ _)
    have hseen1 := walkItems_seen p policy _ _ (tr1, ⟨s2, h2⟩) hrec1
    -- every service visited in the dependency subtree is reachable from `name`
    have hsubreach : ∀ kv2 ∈ tr1,
        Relation.TransGen (EdgeTo p policy) name kv2.1 := by
      intro kv2 hkv2
      refine walkItems_reach p policy
        (fun z => Relation.TransGen (EdgeTo p policy) name z) hn
        (fun n s hr hl dv2 hdv2 hkk2 =>
          hr.tail ⟨s, hl, ⟨dv2, hdv2, rfl⟩, hkk2⟩)
        _ _ (tr1, ⟨s2, h2⟩) hrec1 (foundOf_lookup p hn _) ?_ kv2 hkv2
      intro kv3 hkv3
      have hmemn : kv3.1 ∈ keysA (depsFor p policy svc) :=
        foundOf_mem_names p hkv3 (keysA_ne_nil hd)
      rcases List.mem_map.mp hmemn with ⟨dv3, hdv3, hfst3⟩
      have hkk3 : hasKeyA p.Services kv3.1 = true := by
        rw [hasKeyA, foundOf_lookup p hn _ kv3 hkv3]
        rfl
      refine Relation.TransGen.single ?_
      exact ⟨svc, hlname, ⟨dv3, hdv3, hfst3⟩, hkk3⟩
    simp only [List.map_append, List.map_cons]
    simp only [List.mem_append, List.mem_cons] at hkv
    rcases hkv with hkv | hkv | hkv
    · -- kv sits in the dependency subtree
      rcases ih1 (tr1, ⟨s2, h2⟩) hrec1 (foundOf_lookup p hn _) kv hkv dv hdv hkk
        with hin | hbefore
      · rcases List.mem_cons.mp hin with heqn | hin2
        · -- an edge back to `name` would close a cycle
          exfalso
          have htg : Relation.TransGen (EdgeTo p policy) name kv.1 :=
            hsubreach kv hkv
          have hlkv : lookupA p.Services kv.1 = some kv.2 :=
            walkItems_lookup p policy hn _ _ (tr1, ⟨s2, h2⟩) hrec1
              (foundOf_lookup p hn _) kv hkv
          have hedge : EdgeTo p policy kv.1 name :=
            ⟨kv.2, hlkv, ⟨dv, hdv, heqn⟩, hk⟩
          exact no_self_reach hrank (htg.tail hedge)
        · left
          exact hin2
      · right
        exact beforeL_append_left hbefore
    · -- kv is the service whose dependencies were just walked
      cases hkv
      simp only [ServiceConfig.deepCopy_id] at hdv
      have hdv1 : dv.1 ∈ keysA (depsFor p policy svc) :=
        List.mem_map_of_mem Prod.fst hdv
      have hmemf : dv.1 ∈ (foundOf p (keysA (depsFor p policy svc))).map Prod.fst :=
        mem_foundOf p _ hdv1 hkk
      rcases List.mem_map.mp hmemf with ⟨kv2, hkv2, hfst2⟩
      have hs := walkItems_items_seen p policy _ _ (tr1, ⟨s2, h2⟩) hrec1 kv2 hkv2
        (by rw [hfst2]; exact hkk)
      rw [hfst2] at hs
      rcases (hseen1.1 dv.1).mp hs with hin | hin
      · right
        exact beforeL_cross hin (List.mem_cons_self _ _)
      · rcases List.mem_cons.mp hin with heqn | hin2
        · exfalso
          have hedge : EdgeTo p policy name name := by
            refine ⟨svc, hlname, ⟨dv, hdv, heqn⟩, ?_⟩
            rw [heqn] at hkk
            exact hkk
          exact no_self_reach hrank (Relation.TransGen.single hedge)
        · left
          exact hin2
    · -- kv is in the walk of the remaining items
      rcases ih2 (tr2, ⟨s3, h3⟩) hrec2
        (fun kv hkv => hpre kv (List.mem_cons_of_mem _ hkv)) kv hkv dv hdv hkk
        with hin | hbefore
      · rcases (hseen1.1 dv.1).mp hin with hin1 | hin1
        · right
          refine beforeL_cross hin1 ?_
          exact List.mem_cons_of_mem _ (List.mem_map_of_mem Prod.fst hkv)
        · rcases List.mem_cons.mp hin1 with heqn | hin2
          · right
            rw [heqn]
            refine beforeL_append_right ?_
            exact beforeL_cons_self (List.mem_map_of_mem Prod.fst hkv)
          · left
            exact hin2
      · right
        refine beforeL_append_right ?_
        exact beforeL_cons hbefore
  next name svc rest seen hseen hk ih =>
    intro res heq hpre
    simp only [walkItems, hseen, hk] at heq
    exact ih res heq (fun kv hkv => hpre kv (List.mem_cons_of_mem _ hkv))

/-- On success, with an acyclicity certificate, every transitive
dependency (per the policy) of a visited service is visited strictly
before it. -/
lemma forEachService_order {p : Project} {policy : DepPolicy}
    {names : List String} {tr : AList ServiceConfig} {rank : String → Nat}
    (hn : NodupKeys p.Services) (hrank : RankedAcyclic p policy rank)
    (h : p.ForEachService names policy = .ok tr) :
    ∀ kv ∈ tr, ∀ d, Relation.TransGen (EdgeTo p policy) kv.1 d →
      beforeL (tr.map Prod.fst) d kv.1 := by
  rcases forEachService_ok h with ⟨s2, hsub, hmiss, hw⟩
  have hnd : (tr.map Prod.fst).Nodup :=
    (walkItems_seen p policy _ _ (tr, ⟨s2, hsub⟩) hw).2.2
  have hlk : ∀ kv ∈ tr, lookupA p.Services kv.1 = some kv.2 :=
    walkItems_lookup p policy hn _ _ (tr, ⟨s2, hsub⟩) hw
      (foundOf_lookup p hn names)
  have hdir : ∀ kv ∈ tr, ∀ dv ∈ depsFor p policy kv.2,
      hasKeyA p.Services dv.1 = true → beforeL (tr.map Prod.fst) dv.1 kv.1 := by
    intro kv hkv dv hdv hkk
    rcases walkItems_order p policy rank hn hrank _ _ (tr, ⟨s2, hsub⟩) hw
      (foundOf_lookup p hn names) kv hkv dv hdv hkk with hin | hb
    · cases hin
    · exact hb
  intro kv hkv d htg
  induction htg with
  | single h1 =>
    rcases h1 with ⟨sa, hla, ⟨dv, hdv, hfst⟩, hkd⟩
    have := hlk kv hkv
    rw [hla] at this
    injection this with hv
    rw [hv] at hdv
    have := hdir kv hkv dv hdv (by rw [hfst]; exact hkd)
    rw [hfst] at this
    exact this
  | tail htg1 h1 ih =>
    rename_i b d2
    have hbmem : b ∈ tr.map Prod.fst := beforeL_mem_left ih
    rcases List.mem_map.mp hbmem with ⟨kvb, hkvb, hfstb⟩
    rcases h1 with ⟨sa, hla, ⟨dv, hdv, hfst⟩, hkd⟩
    have := hlk kvb hkvb
    rw [hfstb, hla] at this
    injection this with hv
    rw [hv] at hdv
    have hbd := hdir kvb hkvb dv hdv (by rw [hfst]; exact hkd)
    rw [hfst, hfstb] at hbd
    exact beforeL_trans hnd hbd ih

/-! ## Claim C5 -/

/-- C5 (amended): on a successful walk the visitor runs exactly once per
reachable service (no revisits in diamond graphs), receives (the deep
copy of) exactly the stored service value, and — when the dependency
graph of the policy restricted to existing services is acyclic — every
transitive dependency (dependent, under the dependents policy) of a
service is visited strictly before it.  On cyclic graphs the ordering
clause fails (see the counterexample), which is what forces the
acyclicity condition. -/
theorem C5_forEachService_visit_order (p : Project) (names : List String)
    (policy : DepPolicy) (tr : AList ServiceConfig) (hwf : ProjWF p)
    (h : p.ForEachService names policy = .ok tr) :
    (tr.map Prod.fst).Nodup ∧
    (∀ x, x ∈ tr.map Prod.fst ↔ Reaches p policy names x) ∧
    (∀ kv ∈ tr, lookupA p.Services kv.1 = some kv.2) ∧
    (∀ rank, RankedAcyclic p policy rank →
      ∀ kv ∈ tr, ∀ d, Relation.TransGen (EdgeTo p policy) kv.1 d →
        beforeL (tr.map Prod.fst) d kv.1) := by
  obtain ⟨hn, _, _⟩ := hwf
  rcases forEachService_ok h with ⟨s2, hsub, hmiss, hw⟩
  refine ⟨(walkItems_seen p policy _ _ (tr, ⟨s2, hsub⟩) hw).2.2,
    forEachService_trace_iff hn h, ?_, ?_⟩
  · exact walkItems_lookup p policy hn _ _ (tr, ⟨s2, hsub⟩) hw
      (foundOf_lookup p hn names)
  · intro rank hrank
    exact forEachService_order hn hrank h

/-! ## Disabling: characterization -/

lemma eraseA_not_mem {α : Type} {l : AList α} {k : String}
    (h : k ∉ keysA l) : eraseA l k = l := by
  induction l with
  | nil => rfl
  | cons kv t ih =>
    simp only [keysA, List.map_cons, List.mem_cons] at h
    push_neg at h
    rw [eraseA, if_neg (fun hc => h.1 hc.symm), ih h.2]

lemma mem_eraseA {α : Type} {l : AList α} (hn : NodupKeys l) {k : String}
    {dv : String × α} : dv ∈ eraseA l k ↔ dv ∈ l ∧ dv.1 ≠ k := by
  induction l with
  | nil => simp [eraseA]
  | cons kv t ih =>
    rcases nodupKeys_cons_iff.mp hn with ⟨hk1, hn2⟩
    by_cases he : kv.1 = k
    · rw [eraseA, if_pos he]
      constructor
      · intro h
        refine ⟨List.mem_cons_of_mem _ h, ?_⟩
        intro hc
        apply hk1
        rw [he, ← hc]
        exact List.mem_map_of_mem Prod.fst h
      · rintro ⟨h, hne⟩
        rcases List.mem_cons.mp h with rfl | h2
        · exact absurd he hne
        · exact h2
    · rw [eraseA, if_neg he]
      constructor
      · intro h
        rcases List.mem_cons.mp h with rfl | h2
        · exact ⟨List.mem_cons_self _ _, he⟩
        · rcases (ih hn2).mp h2 with ⟨hm, hne⟩
          exact ⟨List.mem_cons_of_mem _ hm, hne⟩
      · rintro ⟨h, hne⟩
        rcases List.mem_cons.mp h with rfl | h2
        · exact List.mem_cons_self _ _
        · exact List.mem_cons_of_mem _ ((ih hn2).mpr ⟨h2, hne⟩)

lemma mem_foldl_eraseA {α : Type} (names : List String) :
    ∀ (l : AList α), NodupKeys l → ∀ dv : String × α,
      dv ∈ names.foldl eraseA l ↔ dv ∈ l ∧ dv.1 ∉ names := by
  induction names with
  | nil => intro l _ dv; simp
  | cons n rest ih =>
    intro l hn dv
    rw [List.foldl_cons, ih (eraseA l n) (nodupKeys_eraseA hn n) dv, mem_eraseA hn]
    simp only [List.mem_cons]
    tauto

lemma nodupKeys_foldl_eraseA {α : Type} (names : List String) :
    ∀ (l : AList α), NodupKeys l → NodupKeys (names.foldl eraseA l) := by
  induction names with
  | nil => intro l h; exact h
  | cons n rest ih =>
    intro l hn
    rw [List.foldl_cons]
    exact ih _ (nodupKeys_eraseA hn n)

lemma lookupA_map_keyfix {α β : Type} (l : AList α) (f : String → α → β)
    (k : String) :
    lookupA (l.map (fun kv => (kv.1, f kv.1 kv.2))) k =
      (lookupA l k).map (f k) := by
  induction l with
  | nil => rfl
  | cons kv t ih =>
    by_cases he : kv.1 = k
    · subst he
      simp [lookupA]
    · simp [lookupA, he, ih]

lemma nodupKeys_map_keyfix {α β : Type} {l : AList α} (hn : NodupKeys l)
    (f : String → α → β) :
    NodupKeys (l.map (fun kv => (kv.1, f kv.1 kv.2))) := by
  have : keysA (l.map (fun kv => (kv.1, f kv.1 kv.2))) = keysA l := by
    simp [keysA, List.map_map]
  rw [NodupKeys, this]
  exact hn

/-- The conditional dependency prune in `disableOne` is the plain erase:
erasing an absent key is the identity. -/
lemma pruneOne_eq (s : ServiceConfig) (n : String) :
    (if hasKeyA s.DependsOn n then
      { s with DependsOn := eraseA s.DependsOn n } else s) =
    { s with DependsOn := eraseA s.DependsOn n } := by
  by_cases h : hasKeyA s.DependsOn n
  · rw [if_pos h]
  · rw [if_neg h]
    have hne : n ∉ keysA s.DependsOn := by
      intro hc
      exact h (hasKeyA_iff.mpr hc)
    rw [eraseA_not_mem hne]

lemma disableOne_services_lookup (np : Project) (name : String)
    (hn : NodupKeys np.Services) (x : String) :
    lookupA (disableOne np name).Services x =
      if x = name then none
      else (lookupA np.Services x).map
        (fun s => { s with DependsOn := eraseA s.DependsOn name }) := by
  rw [disableOne]
  have hmap : ∀ y, lookupA (np.Services.map (fun kv =>
      (kv.1, if hasKeyA kv.2.DependsOn name then
        { kv.2 with DependsOn := eraseA kv.2.DependsOn name } else kv.2))) y =
      (lookupA np.Services y).map
        (fun s => { s with DependsOn := eraseA s.DependsOn name }) := by
    intro y
    rw [lookupA_map_keyfix np.Services (fun _ s =>
      if hasKeyA s.DependsOn name then
        { s with DependsOn := eraseA s.DependsOn name } else s) y]
    congr 1
    funext s
    exact pruneOne_eq s name
  rcases hml : lookupA (np.Services.map (fun kv =>
      (kv.1, if hasKeyA kv.2.DependsOn name then
        { kv.2 with DependsOn := eraseA kv.2.DependsOn name } else kv.2))) name
      with _ | svc
  · simp only [hml]
    by_cases he : x = name
    · subst he
      rw [if_pos rfl]
      exact hml
    · rw [if_neg he]
      exact hmap x
  · simp only [hml]
    by_cases he : x = name
    · subst he
      rw [if_pos rfl]
      exact lookupA_eraseA_self (nodupKeys_map_keyfix hn (fun _ s =>
        if hasKeyA s.DependsOn x then
          { s with DependsOn := eraseA s.DependsOn x } else s)) x
    · rw [if_neg he, lookupA_eraseA_ne _ _ _ he]
      exact hmap x

lemma disableOne_disabled_hasKey (np : Project) (name : String)
    (hn : NodupKeys np.Services) (x : String) :
    hasKeyA (disableOne np name).DisabledServices x =
      (hasKeyA np.DisabledServices x ||
        (decide (x = name) && hasKeyA np.Services name)) := by
  rw [disableOne]
  have hmap := lookupA_map_keyfix np.Services (fun _ s =>
    if hasKeyA s.DependsOn name then
      { s with DependsOn := eraseA s.DependsOn name } else s) name
  rcases hml : lookupA (np.Services.map (fun kv =>
      (kv.1, if hasKeyA kv.2.DependsOn name then
        { kv.2 with DependsOn := eraseA kv.2.DependsOn name } else kv.2))) name
      with _ | svc
  · simp only [hml]
    rw [hml] at hmap
    have hnone : lookupA np.Services name = none := by
      rcases h2 : lookupA np.Services name with _ | s
      · rfl
      · rw [h2] at hmap
        simp at hmap
    have : hasKeyA np.Services name = false := by
      rw [hasKeyA, hnone]
      rfl
    rw [this]
    simp
  · simp only [hml]
    rw [hml] at hmap
    have hsome : (lookupA np.Services name).isSome = true := by
      rcases h2 : lookupA np.Services name with _ | s
      · rw [h2] at hmap
        simp at hmap
      · rfl
    have hkey : hasKeyA np.Services name = true := hsome
    rw [hkey]
    by_cases he : x = name
    · subst he
      rw [hasKeyA, lookupA_insertA_self]
      simp
    · rw [hasKeyA, lookupA_insertA_ne _ _ _ _ he]
      simp [he, hasKeyA]

lemma disableOne_disabled_lookup_ne (np : Project) (name : String)
    {x : String} (hne : x ≠ name) :
    lookupA (disableOne np name).DisabledServices x =
      lookupA np.DisabledServices x := by
  rw [disableOne]
  rcases hml : lookupA (np.Services.map (fun kv =>
      (kv.1, if hasKeyA kv.2.DependsOn name then
        { kv.2 with DependsOn := eraseA kv.2.DependsOn name } else kv.2))) name
      with _ | svc
  · simp only [hml]
  · simp only [hml]
    exact lookupA_insertA_ne _ _ _ _ hne

lemma disableOne_nodup (np : Project) (name : String)
    (hn : NodupKeys np.Services) (hd : NodupKeys np.DisabledServices) :
    NodupKeys (disableOne np name).Services ∧
      NodupKeys (disableOne np name).DisabledServices := by
  rw [disableOne]
  rcases hml : lookupA (np.Services.map (fun kv =>
      (kv.1, if hasKeyA kv.2.DependsOn name then
        { kv.2 with DependsOn := eraseA kv.2.DependsOn name } else kv.2))) name
      with _ | svc
  · simp only [hml]
    exact ⟨nodupKeys_map_keyfix hn (fun _ s =>
      if hasKeyA s.DependsOn name then
        { s with DependsOn := eraseA s.DependsOn name } else s), hd⟩
  · simp only [hml]
    exact ⟨nodupKeys_eraseA (nodupKeys_map_keyfix hn (fun _ s =>
      if hasKeyA s.DependsOn name then
        { s with DependsOn := eraseA s.DependsOn name } else s)) name,
      nodupKeys_insertA hd name svc⟩

lemma disableOne_fields (np : Project) (name : String) :
    (disableOne np name).Name = np.Name ∧
    (disableOne np name).WorkingDir = np.WorkingDir ∧
    (disableOne np name).Environment = np.Environment ∧
    (disableOne np name).Profiles = np.Profiles := by
  rw [disableOne]
  rcases hml : lookupA (np.Services.map (fun kv =>
      (kv.1, if hasKeyA kv.2.DependsOn name then
        { kv.2 with DependsOn := eraseA kv.2.DependsOn name } else kv.2))) name
      with _ | svc
  · simp [hml]
  · simp [hml]

lemma disableOne_services_nodup (np : Project) (name : String)
    (hn : NodupKeys np.Services) : NodupKeys (disableOne np name).Services := by
  rw [disableOne]
  rcases hml : lookupA (np.Services.map (fun kv =>
      (kv.1, if hasKeyA kv.2.DependsOn name then
        { kv.2 with DependsOn := eraseA kv.2.DependsOn name } else kv.2))) name
      with _ | svc
  · simp only [hml]
    exact nodupKeys_map_keyfix hn (fun _ s =>
      if hasKeyA s.DependsOn name then
        { s with DependsOn := eraseA s.DependsOn name } else s)
  · simp only [hml]
    exact nodupKeys_eraseA (nodupKeys_map_keyfix hn (fun _ s =>
      if hasKeyA s.DependsOn name then
        { s with DependsOn := eraseA s.DependsOn name } else s)) name

lemma disableOne_services_hasKey (np : Project) (name : String)
    (hn : NodupKeys np.Services) (x : String) :
    hasKeyA (disableOne np name).Services x = true ↔
      x ≠ name ∧ hasKeyA np.Services x = true := by
  rw [hasKeyA, disableOne_services_lookup np name hn x]
  by_cases he : x = name
  · subst he
    simp
  · simp only [if_neg he]
    rcases h2 : lookupA np.Services x with _ | s
    · simp [hasKeyA, h2, he]
    · simp [hasKeyA, h2, he]

lemma foldl_disableOne_services (names : List String) :
    ∀ np : Project, NodupKeys np.Services → ∀ x,
      lookupA (names.foldl disableOne np).Services x =
        if x ∈ names then none
        else (lookupA np.Services x).map
          (fun s => { s with DependsOn := names.foldl eraseA s.DependsOn }) := by
  induction names with
  | nil =>
    intro np hn x
    simp only [List.foldl_nil, List.mem_nil_iff, if_neg (fun h => h)]
    rcases h2 : lookupA np.Services x with _ | s
    · rfl
    · rfl
  | cons n rest ih =>
    intro np hn x
    rw [List.foldl_cons, ih (disableOne np n) (disableOne_services_nodup np n hn) x,
      disableOne_services_lookup np n hn x]
    by_cases hr : x ∈ rest
    · rw [if_pos hr, if_pos (List.mem_cons_of_mem _ hr)]
    · rw [if_neg hr]
      by_cases he : x = n
      · subst he
        rw [if_pos rfl, if_pos (List.mem_cons_self _ _)]
        rfl
      · rw [if_neg he, if_neg (by simp [he, hr])]
        rw [Option.map_map]
        rcases h2 : lookupA np.Services x with _ | s
        · rfl
        · rfl

lemma foldl_disableOne_disabled_hasKey (names : List String) :
    ∀ np : Project, NodupKeys np.Services → ∀ x,
      (hasKeyA (names.foldl disableOne np).DisabledServices x = true ↔
        (hasKeyA np.DisabledServices x = true ∨
          (x ∈ names ∧ hasKeyA np.Services x = true))) := by
  induction names with
  | nil =>
    intro np hn x
    simp
  | cons n rest ih =>
    intro np hn x
    rw [List.foldl_cons, ih (disableOne np n) (disableOne_services_nodup np n hn) x]
    rw [disableOne_services_hasKey np n hn x]
    constructor
    · rintro (hdis | ⟨hr, hne, hk⟩)
      · rw [disableOne_disabled_hasKey np n hn x] at hdis
        simp only [Bool.or_eq_true, Bool.and_eq_true, decide_eq_true_eq] at hdis
        rcases hdis with hdis | ⟨rfl, hk⟩
        · exact Or.inl hdis
        · exact Or.inr ⟨List.mem_cons_self _ _, hk⟩
      · exact Or.inr ⟨List.mem_cons_of_mem _ hr, hk⟩
    · rintro (hdis | ⟨hmem, hk⟩)
      · left
        rw [disableOne_disabled_hasKey np n hn x]
        simp [hdis]
      · rcases List.mem_cons.mp hmem with rfl | hr
        · left
          rw [disableOne_disabled_hasKey np x hn x]
          simp [hk]
        · by_cases he : x = n
          · subst he
            left
            rw [disableOne_disabled_hasKey np x hn x]
            simp [hk]
          · exact Or.inr ⟨hr, he, hk⟩

lemma foldl_disableOne_disabled_lookup_ne (names : List String) :
    ∀ np : Project, ∀ x, x ∉ names →
      lookupA (names.foldl disableOne np).DisabledServices x =
        lookupA np.DisabledServices x := by
  induction names with
  | nil => intro np x _; rfl
  | cons n rest ih =>
    intro np x hx
    simp only [List.mem_cons] at hx
    push_neg at hx
    rw [List.foldl_cons, ih (disableOne np n) x hx.2,
      disableOne_disabled_lookup_ne np n hx.1]

lemma foldl_disableOne_fields (names : List String) :
    ∀ np : Project,
      (names.foldl disableOne np).Name = np.Name ∧
      (names.foldl disableOne np).WorkingDir = np.WorkingDir ∧
      (names.foldl disableOne np).Environment = np.Environment ∧
      (names.foldl disableOne np).Profiles = np.Profiles := by
  induction names with
  | nil => intro np; exact ⟨rfl, rfl, rfl, rfl⟩
  | cons n rest ih =>
    intro np
    rw [List.foldl_cons]
    rcases ih (disableOne np n) with ⟨h1, h2, h3, h4⟩
    rcases disableOne_fields np n with ⟨g1, g2, g3, g4⟩
    exact ⟨h1.trans g1, h2.trans g2, h3.trans g3, h4.trans g4⟩

lemma foldl_disableOne_disabled_nodup (names : List String) :
    ∀ np : Project, NodupKeys np.Services → NodupKeys np.DisabledServices →
      NodupKeys (names.foldl disableOne np).DisabledServices := by
  induction names with
  | nil => intro np _ hd; exact hd
  | cons n rest ih =>
    intro np hn hd
    rw [List.foldl_cons]
    exact ih (disableOne np n) (disableOne_services_nodup np n hn)
      (disableOne_nodup np n hn hd).2

/-! ## Claim C7 -/

/-- C7 (amended): `WithServicesDisabled` moves each named enabled
service to `DisabledServices`, and removes every `DependsOn` edge of a
surviving enabled service that targets any requested name — whether or
not that name matched an enabled service.  For a requested name with no
matching enabled service nothing is moved and other disabled entries
are untouched, but the edge pruning still happens (the no-op part of
the original claim fails, see the counterexample). -/
theorem C7_withServicesDisabled (p : Project) (names : List String)
    (hwf : ProjWF p) :
    (∀ x, hasKeyA (p.WithServicesDisabled names).Services x = true ↔
      (x ∉ names ∧ hasKeyA p.Services x = true)) ∧
    (∀ x, hasKeyA (p.WithServicesDisabled names).DisabledServices x = true ↔
      (hasKeyA p.DisabledServices x = true ∨
        (x ∈ names ∧ hasKeyA p.Services x = true))) ∧
    (∀ x s, x ∉ names → lookupA p.Services x = some s →
      ∃ s2, lookupA (p.WithServicesDisabled names).Services x = some s2 ∧
        (∀ dv, dv ∈ s2.DependsOn ↔ dv ∈ s.DependsOn ∧ dv.1 ∉ names) ∧
        s2.Name = s.Name ∧ s2.Profiles = s.Profiles ∧ s2.Image = s.Image ∧
        s2.Environment = s.Environment ∧ s2.EnvFiles = s.EnvFiles) ∧
    (∀ x, x ∉ names →
      lookupA (p.WithServicesDisabled names).DisabledServices x =
        lookupA p.DisabledServices x) ∧
    (p.WithServicesDisabled names).Name = p.Name ∧
    (p.WithServicesDisabled names).Profiles = p.Profiles ∧
    (p.WithServicesDisabled names).Environment = p.Environment ∧
    (p.WithServicesDisabled names).WorkingDir = p.WorkingDir := by
  obtain ⟨hn, hd, hdep⟩ := hwf
  by_cases hemp : names.isEmpty
  · have hnil : names = [] := List.isEmpty_iff.mp hemp
    subst hnil
    have hq : p.WithServicesDisabled [] = p := rfl
    rw [hq]
    refine ⟨by simp, by simp, ?_, by simp, rfl, rfl, rfl, rfl⟩
    intro x s _ hs
    exact ⟨s, hs, by simp, rfl, rfl, rfl, rfl, rfl⟩
  · have hq : p.WithServicesDisabled names = names.foldl disableOne p := by
      rw [Project.WithServicesDisabled]
      simp only [Project.deepCopy_eq, hemp]
      rw [if_neg]
      simp [hemp]
    rw [hq]
    refine ⟨?_, foldl_disableOne_disabled_hasKey names p hn, ?_, ?_, ?_, ?_, ?_, ?_⟩
    · intro x
      rw [hasKeyA, foldl_disableOne_services names p hn x]
      by_cases hx : x ∈ names
      · simp [hx]
      · rw [if_neg hx]
        rcases h2 : lookupA p.Services x with _ | s
        · simp [hx, hasKeyA, h2]
        · simp [hx, hasKeyA, h2]
    · intro x s hx hs
      refine ⟨{ s with DependsOn := names.foldl eraseA s.DependsOn }, ?_,
        ?_, rfl, rfl, rfl, rfl, rfl⟩
      · rw [foldl_disableOne_services names p hn x, if_neg hx, hs]
        rfl
      · intro dv
        exact mem_foldl_eraseA names s.DependsOn (hdep (x, s) (lookupA_mem hs)) dv
    · exact foldl_disableOne_disabled_lookup_ne names p
    · exact (foldl_disableOne_fields names p).1
    · exact (foldl_disableOne_fields names p).2.2.2
    · exact (foldl_disableOne_fields names p).2.2.1
    · exact (foldl_disableOne_fields names p).2.1

/-! ## Selection: characterization -/

lemma withServicesDisabled_single (np : Project) (n : String) :
    np.WithServicesDisabled [n] = disableOne np n := rfl

/-- The conditional disable loop of `WithSelectedServices` is the
disable fold over the excluded names. -/
lemma foldl_cond_disable (set : List String) (L : AList ServiceConfig) :
    ∀ np : Project,
      L.foldl (fun acc kv =>
        if set.contains kv.1 then acc else acc.WithServicesDisabled [kv.1]) np =
      ((L.map Prod.fst).filter (fun n => !set.contains n)).foldl disableOne np := by
  induction L with
  | nil => intro np; rfl
  | cons kv t ih =>
    intro np
    rw [List.foldl_cons, List.map_cons, List.filter_cons]
    by_cases hc : set.contains kv.1
    · rw [if_pos hc, if_neg (by simpa using hc)]
      exact ih np
    · rw [if_neg hc, if_pos (by simpa using hc), List.foldl_cons,
        withServicesDisabled_single]
      exact ih (disableOne np kv.1)

lemma insertA_append_of_not_mem {α : Type} {acc : AList α} {k : String}
    (h : k ∉ keysA acc) (v : α) : insertA acc k v = acc ++ [(k, v)] := by
  induction acc with
  | nil => rfl
  | cons kv t ih =>
    simp only [keysA, List.map_cons, List.mem_cons] at h
    push_neg at h
    rw [insertA, if_neg (fun hc => h.1 hc.symm), ih h.2]
    rfl

/-- The retained-services loop of `WithSelectedServices`: lookup in the
accumulated map. -/
lemma foldl_insert_cond_lookup (set : List String)
    (f : String → ServiceConfig → ServiceConfig) :
    ∀ (L : AList ServiceConfig) (acc : AList ServiceConfig),
      NodupKeys L → (∀ x, x ∈ keysA acc → x ∉ keysA L) →
      ∀ x, lookupA (L.foldl (fun a kv =>
          if set.contains kv.1 then insertA a kv.1 (f kv.1 kv.2) else a) acc) x =
        match lookupA acc x with
        | some v => some v
        | none =>
          match lookupA L x with
          | some s => if set.contains x then some (f x s) else none
          | none => none := by
  intro L
  induction L with
  | nil =>
    intro acc _ _ x
    simp only [List.foldl_nil, lookupA]
    rcases lookupA acc x with _ | v
    · rfl
    · rfl
  | cons kv t ih =>
    intro acc hnd hdisj x
    rcases nodupKeys_cons_iff.mp hnd with ⟨hk1, hnd2⟩
    rw [List.foldl_cons]
    by_cases hc : set.contains kv.1
    · rw [if_pos hc]
      have hknew : kv.1 ∉ keysA acc := fun hin =>
        hdisj kv.1 hin (List.mem_cons_self _ _)
      have hdisj2 : ∀ y, y ∈ keysA (insertA acc kv.1 (f kv.1 kv.2)) →
          y ∉ keysA t := by
        intro y hy
        rcases (keysA_insertA_sub acc kv.1 y (f kv.1 kv.2)).mp hy with rfl | hy2
        · exact hk1
        · intro hc2
          exact hdisj y hy2 (List.mem_cons_of_mem _ hc2)
      rw [ih (insertA acc kv.1 (f kv.1 kv.2)) hnd2 hdisj2 x]
      by_cases he : x = kv.1
      · have hgone : lookupA acc kv.1 = none := lookupA_eq_none_iff.mpr hknew
        have hgone2 : lookupA t kv.1 = none := lookupA_eq_none_iff.mpr hk1
        have hm : kv.1 ∈ set := by simpa using hc
        rw [he, lookupA_insertA_self, hgone, hgone2]
        simp [lookupA, hm]
      · rw [lookupA_insertA_ne _ _ _ _ he]
        rcases ha : lookupA acc x with _ | v
        · simp only [lookupA]
          rw [if_neg (fun hc2 => he hc2.symm)]
        · rfl
    · rw [if_neg hc]
      have hdisj2 : ∀ y, y ∈ keysA acc → y ∉ keysA t := by
        intro y hy hc2
        exact hdisj y hy (List.mem_cons_of_mem _ hc2)
      rw [ih acc hnd2 hdisj2 x]
      rcases ha : lookupA acc x with _ | v
      · simp only [lookupA]
        by_cases he : kv.1 = x
        · have hm : kv.1 ∉ set := by simpa using hc
          rw [← he, lookupA_eq_none_iff.mpr hk1, if_pos rfl]
          simp [hm]
        · rw [if_neg he]
      · rfl

/-! ## Claim C6 -/

lemma contains_true_iff {l : List String} {a : String} :
    l.contains a = true ↔ a ∈ l := by simp

lemma bnot_contains_true_iff {l : List String} {a : String} :
    (!l.contains a) = true ↔ a ∉ l := by simp

/-- Characterization of a successful `WithSelectedServices` run, shared
by the selection and invariant claims. -/
lemma withSelectedServices_char (p : Project) (names : List String)
    (policy : DepPolicy) (q : Project) (hwf : ProjWF p)
    (h : p.WithSelectedServices names policy = .ok q) :
    (names = [] → q = p) ∧
    (names ≠ [] →
      (∀ x, hasKeyA q.Services x = true ↔ Reaches p policy names x) ∧
      (∀ x, hasKeyA q.DisabledServices x = true ↔
        (hasKeyA p.DisabledServices x = true ∨
          (hasKeyA p.Services x = true ∧ ¬ Reaches p policy names x))) ∧
      (∀ x s2, lookupA q.Services x = some s2 →
        ∃ s, lookupA p.Services x = some s ∧
          (∀ dv, dv ∈ s2.DependsOn ↔
            dv ∈ s.DependsOn ∧ Reaches p policy names dv.1) ∧
          s2.Name = s.Name ∧ s2.Profiles = s.Profiles ∧ s2.Image = s.Image ∧
          s2.Environment = s.Environment ∧ s2.EnvFiles = s.EnvFiles)) := by
  obtain ⟨hn, hd, hdep⟩ := hwf
  by_cases hnil : names = []
  · subst hnil
    have h0 : p.WithSelectedServices [] policy = .ok p := rfl
    rw [h0] at h
    injection h with h
    exact ⟨fun _ => h.symm, fun hc => absurd rfl hc⟩
  · refine ⟨fun hc => absurd hc hnil, fun _ => ?_⟩
    have hne : ¬ names.isEmpty = true := by
      cases names with
      | nil => exact absurd rfl hnil
      | cons a t => simp
    rw [Project.WithSelectedServices] at h
    simp only [Project.deepCopy_eq] at h
    rw [if_neg hne] at h
    rcases htr : p.ForEachService names policy with e | trace
    · rw [htr] at h
      cases h
    · rw [htr] at h
      injection h with h
      have hset : ∀ x, x ∈ trace.map Prod.fst ↔ Reaches p policy names x :=
        forEachService_trace_iff hn htr
      have hserv : ∀ x, lookupA q.Services x =
          match lookupA p.Services x with
          | some s =>
            if (trace.map Prod.fst).contains x then
              some { s with
                DependsOn := s.DependsOn.filter
                  (fun dv => (trace.map Prod.fst).contains dv.1) }
            else none
          | none => none := by
        intro x
        rw [← h]
        have := foldl_insert_cond_lookup (trace.map Prod.fst)
          (fun _ s => { s with
            DependsOn := s.DependsOn.filter
              (fun dv => (trace.map Prod.fst).contains dv.1) })
          p.Services [] hn (by intro y hy; cases hy) x
        simpa using this
      have hdisab : ∀ x, hasKeyA q.DisabledServices x = true ↔
          (hasKeyA p.DisabledServices x = true ∨
            (x ∈ (p.Services.map Prod.fst).filter
              (fun n => !(trace.map Prod.fst).contains n) ∧
              hasKeyA p.Services x = true)) := by
        intro x
        rw [← h]
        have hfold := foldl_cond_disable (trace.map Prod.fst) p.Services p
        have hkey := foldl_disableOne_disabled_hasKey
          ((p.Services.map Prod.fst).filter
            (fun n => !(trace.map Prod.fst).contains n)) p hn x
        rw [← hfold] at hkey
        exact hkey
      refine ⟨?_, ?_, ?_⟩
      · intro x
        rcases hl : lookupA p.Services x with _ | s
        · have hq2 : lookupA q.Services x = none := by rw [hserv x, hl]
          rw [hasKeyA, hq2]
          simp only [Option.isSome_none]
          constructor
          · intro hc
            cases hc
          · intro hr
            exfalso
            have := reaches_hasKey hr
            rw [hasKeyA, hl] at this
            cases this
        · have hq2 : lookupA q.Services x =
              (if (trace.map Prod.fst).contains x then
                some { s with
                  DependsOn := s.DependsOn.filter
                    (fun dv => (trace.map Prod.fst).contains dv.1) }
              else none) := by
            rw [hserv x, hl]
          rw [hasKeyA, hq2]
          by_cases hm : (trace.map Prod.fst).contains x = true
          · rw [if_pos hm]
            simp only [Option.isSome_some, true_iff]
            exact (hset x).mp (contains_true_iff.mp hm)
          · rw [if_neg hm]
            simp only [Option.isSome_none]
            constructor
            · intro hc
              cases hc
            · intro hr
              exact (hm (contains_true_iff.mpr ((hset x).mpr hr))).elim
      · intro x
        rw [hdisab x]
        have hmf : x ∈ (p.Services.map Prod.fst).filter
            (fun n => !(trace.map Prod.fst).contains n) ↔
            (x ∈ p.Services.map Prod.fst ∧ ¬ Reaches p policy names x) := by
          rw [List.mem_filter, bnot_contains_true_iff, hset x]
        have hkmap : x ∈ p.Services.map Prod.fst ↔ hasKeyA p.Services x = true :=
          Iff.symm hasKeyA_iff
        rw [hmf, hkmap]
        tauto
      · intro x s2 hs2
        rcases hl : lookupA p.Services x with _ | s
        · have hq2 : lookupA q.Services x = none := by rw [hserv x, hl]
          rw [hq2] at hs2
          cases hs2
        · have hq2 : lookupA q.Services x =
              (if (trace.map Prod.fst).contains x then
                some { s with
                  DependsOn := s.DependsOn.filter
                    (fun dv => (trace.map Prod.fst).contains dv.1) }
              else none) := by
            rw [hserv x, hl]
          rw [hq2] at hs2
          by_cases hm : (trace.map Prod.fst).contains x = true
          · rw [if_pos hm] at hs2
            injection hs2 with hs2
            refine ⟨s, rfl, ?_, ?_, ?_, ?_, ?_, ?_⟩
            · intro dv
              rw [← hs2]
              simp only [List.mem_filter]
              rw [contains_true_iff, hset dv.1]
            · rw [← hs2]
            · rw [← hs2]
            · rw [← hs2]
            · rw [← hs2]
            · rw [← hs2]
          · rw [if_neg hm] at hs2
            cases hs2

/-- C6: a successful `WithSelectedServices` keeps enabled exactly the
dependency (or dependent, per policy) closure of the requested names,
moves every previously enabled service outside the closure to
`DisabledServices`, silently drops every `DependsOn` edge of a surviving
service that points outside the closure (even a required one), and
returns the project unchanged for an empty name list. -/
theorem C6_withSelectedServices (p : Project) (names : List String)
    (policy : DepPolicy) (q : Project) (hwf : ProjWF p)
    (h : p.WithSelectedServices names policy = .ok q) :
    (names = [] → q = p) ∧
    (names ≠ [] →
      (∀ x, hasKeyA q.Services x = true ↔ Reaches p policy names x) ∧
      (∀ x, hasKeyA q.DisabledServices x = true ↔
        (hasKeyA p.DisabledServices x = true ∨
          (hasKeyA p.Services x = true ∧ ¬ Reaches p policy names x))) ∧
      (∀ x s2, lookupA q.Services x = some s2 →
        ∃ s, lookupA p.Services x = some s ∧
          (∀ dv, dv ∈ s2.DependsOn ↔
            dv ∈ s.DependsOn ∧ Reaches p policy names dv.1) ∧
          s2.Name = s.Name ∧ s2.Profiles = s.Profiles ∧ s2.Image = s.Image ∧
          s2.Environment = s.Environment ∧ s2.EnvFiles = s.EnvFiles)) :=
  withSelectedServices_char p names policy q hwf h

/-! ## Profiles: characterization -/

/-- Left-biased choice on options, shared by the lookup lemmas. -/
def orO {α : Type} (a b : Option α) : Option α :=
  match a with
  | some v => some v
  | none => b

lemma lookupA_foldl_insertA {α : Type} (L : AList α) :
    ∀ (acc : AList α) (x : String), NodupKeys L →
      lookupA (L.foldl (fun a kv => insertA a kv.1 kv.2) acc) x =
        orO (lookupA L x) (lookupA acc x) := by
  induction L with
  | nil => intro acc x _; rfl
  | cons kv t ih =>
    intro acc x hnd
    rcases nodupKeys_cons_iff.mp hnd with ⟨hk1, hnd2⟩
    rw [List.foldl_cons, ih (insertA acc kv.1 kv.2) x hnd2]
    by_cases he : kv.1 = x
    · have ht : lookupA t x = none := by
        rw [lookupA_eq_none_iff, ← he]
        exact hk1
      rw [ht]
      simp only [lookupA, if_pos he, orO]
      rw [← he, lookupA_insertA_self]
    · simp only [lookupA, if_neg he]
      rcases h2 : lookupA t x with _ | v
      · simp only [orO]
        rw [lookupA_insertA_ne _ _ _ _ (fun hc => he hc.symm)]
      · simp only [orO]

lemma allServices_lookup (p : Project) (hd : NodupKeys p.DisabledServices)
    (x : String) :
    lookupA p.AllServices x =
      orO (lookupA p.DisabledServices x) (lookupA p.Services x) := by
  have := lookupA_foldl_insertA p.DisabledServices p.Services x hd
  rw [Project.AllServices]
  exact this

lemma allServices_nodup (p : Project) (hn : NodupKeys p.Services) :
    NodupKeys p.AllServices :=
  nodupKeys_foldl_insertA p.DisabledServices p.Services hn

/-! ## Claim C2 -/

/-- C2 (amended): a `"*"` wildcard among the requested profiles makes
`WithProfiles` return the (copy of the) project unchanged — previously
disabled services stay disabled (the original claim that every service
becomes enabled fails, see the counterexample).  Without a wildcard, the
recombined services are partitioned by `HasProfile` into the new
`Services`/`DisabledServices`, and the profile list is recorded. -/
theorem C2_withProfiles_partition (p : Project) (profiles : List String)
    (hn : NodupKeys p.Services) (hd : NodupKeys p.DisabledServices) :
    ("*" ∈ profiles → p.WithProfiles profiles = p) ∧
    ("*" ∉ profiles →
      (p.WithProfiles profiles).Profiles = profiles ∧
      (∀ n s, lookupA p.AllServices n = some s →
        (s.HasProfile profiles = true →
          lookupA (p.WithProfiles profiles).Services n = some s ∧
          lookupA (p.WithProfiles profiles).DisabledServices n = none) ∧
        (s.HasProfile profiles = false →
          lookupA (p.WithProfiles profiles).DisabledServices n = some s ∧
          lookupA (p.WithProfiles profiles).Services n = none)) ∧
      (∀ n, lookupA p.AllServices n = none →
        lookupA (p.WithProfiles profiles).Services n = none ∧
        lookupA (p.WithProfiles profiles).DisabledServices n = none)) := by
  have hall := allServices_nodup p hn
  constructor
  · intro hw
    rw [Project.WithProfiles]
    simp only [Project.deepCopy_eq]
    rw [if_pos (contains_true_iff.mpr hw)]
  · intro hw
    have hnc : ¬ profiles.contains "*" = true := fun hc =>
      hw (contains_true_iff.mp hc)
    have hq : p.WithProfiles profiles =
        { p with
          Services := p.AllServices.filter (fun kv => kv.2.HasProfile profiles),
          DisabledServices :=
            p.AllServices.filter (fun kv => ¬ kv.2.HasProfile profiles),
          Profiles := profiles } := by
      rw [Project.WithProfiles]
      simp only [Project.deepCopy_eq]
      rw [if_neg hnc]
    rw [hq]
    refine ⟨rfl, ?_, ?_⟩
    · intro n s hns
      constructor
      · intro hp
        constructor
        · simp [lookupA_filter hall, hns, hp]
        · simp [lookupA_filter hall, hns, hp]
      · intro hp
        constructor
        · simp [lookupA_filter hall, hns, hp]
        · simp [lookupA_filter hall, hns, hp]
    · intro n hns
      constructor
      · simp [lookupA_filter hall, hns]
      · simp [lookupA_filter hall, hns]

/-! ## Environment resolution: characterization -/

/-- Modelled from the spec: the merge of the parsed env files in list
order — later files override earlier ones per key, files that are
missing (and not required, or the fold would not be reached) are
skipped. -/
def specEnvFilesMerge (fs : String → FileResult) (files : List EnvFile)
    (acc : MappingWithEquals) : MappingWithEquals :=
  files.foldl (fun acc f =>
    match fs f.Path with
    | .parsed vars => overrideBy acc (toMappingWithEquals vars)
    | _ => acc) acc

/-- A service's env-file list loads without error. -/
def GoodEnvFiles (fs : String → FileResult) (files : List EnvFile) : Prop :=
  ∀ f ∈ files, (fs f.Path = .missing → f.Required = false) ∧
    ¬ fs f.Path = .unreadable

lemma accumulateEnvFiles_ok (fs : String → FileResult) :
    ∀ (files : List EnvFile) (acc : MappingWithEquals),
      GoodEnvFiles fs files →
      accumulateEnvFiles fs files acc = .ok (specEnvFilesMerge fs files acc) := by
  intro files
  induction files with
  | nil => intro acc _; rfl
  | cons f rest ih =>
    intro acc hg
    have hf := hg f (List.mem_cons_self _ _)
    have hrest : GoodEnvFiles fs rest :=
      fun f2 h2 => hg f2 (List.mem_cons_of_mem _ h2)
    rw [accumulateEnvFiles, specEnvFilesMerge, List.foldl_cons]
    rcases hp : fs f.Path with _ | _ | vars
    · rw [hf.1 hp]
      simp only [Bool.false_eq_true, if_neg (fun h => h)]
      have := ih acc hrest
      rw [specEnvFilesMerge] at this
      exact this
    · exact absurd hp hf.2
    · have := ih (overrideBy acc (toMappingWithEquals vars)) hrest
      rw [specEnvFilesMerge] at this
      exact this

lemma accumulateEnvFiles_err (fs : String → FileResult) :
    ∀ (files : List EnvFile) (acc : MappingWithEquals) (e : String),
      accumulateEnvFiles fs files acc = .error e →
      ∃ f ∈ files,
        (fs f.Path = .missing ∧ f.Required = true ∧
          e = "env file " ++ f.Path ++ " not found") ∨
        (fs f.Path = .unreadable ∧ e = "failed to load " ++ f.Path) := by
  intro files
  induction files with
  | nil =>
    intro acc e h
    cases h
  | cons f rest ih =>
    intro acc e h
    rw [accumulateEnvFiles] at h
    rcases hp : fs f.Path with _ | _ | vars
    · rw [hp] at h
      by_cases hr : f.Required
      · rw [if_pos hr] at h
        injection h with h
        exact ⟨f, List.mem_cons_self _ _, Or.inl ⟨hp, hr, h.symm⟩⟩
      · rw [if_neg hr] at h
        rcases ih acc e h with ⟨f2, hm, hcase⟩
        exact ⟨f2, List.mem_cons_of_mem _ hm, hcase⟩
    · rw [hp] at h
      injection h with h
      exact ⟨f, List.mem_cons_self _ _, Or.inr ⟨hp, h.symm⟩⟩
    · rw [hp] at h
      rcases ih _ e h with ⟨f2, hm, hcase⟩
      exact ⟨f2, List.mem_cons_of_mem _ hm, hcase⟩

lemma accumulateEnvFiles_not_good (fs : String → FileResult) :
    ∀ (files : List EnvFile) (acc : MappingWithEquals),
      ¬ GoodEnvFiles fs files →
      ∃ e, accumulateEnvFiles fs files acc = .error e := by
  intro files
  induction files with
  | nil =>
    intro acc hg
    exact absurd (fun f hf => absurd hf (List.not_mem_nil f)) hg
  | cons f rest ih =>
    intro acc hg
    rw [accumulateEnvFiles]
    rcases hp : fs f.Path with _ | _ | vars
    · by_cases hr : f.Required
      · rw [if_pos hr]
        exact ⟨_, rfl⟩
      · rw [if_neg hr]
        refine ih acc ?_
        intro hrest
        apply hg
        intro f2 hf2
        rcases List.mem_cons.mp hf2 with rfl | h2
        · refine ⟨fun _ => ?_, fun hc => by rw [hp] at hc; cases hc⟩
          cases h3 : f2.Required
          · rfl
          · exact absurd h3 hr
        · exact hrest f2 h2
    · exact ⟨_, rfl⟩
    · refine ih (overrideBy acc (toMappingWithEquals vars)) ?_
      intro hrest
      apply hg
      intro f2 hf2
      rcases List.mem_cons.mp hf2 with rfl | h2
      · constructor
        · intro hc
          rw [hp] at hc
          cases hc
        · intro hc
          rw [hp] at hc
          cases hc
      · exact hrest f2 h2

/-- The per-service resolution, on the success path. -/
lemma resolveServiceEnv_ok (fs : String → FileResult) (projEnv : Mapping)
    (dis : Bool) (svc : ServiceConfig) (hg : GoodEnvFiles fs svc.EnvFiles) :
    resolveServiceEnv fs projEnv dis svc = .ok
      { svc with
        Environment := overrideBy (specEnvFilesMerge fs svc.EnvFiles [])
          (resolveMWE svc.Environment (lookupA projEnv)),
        EnvFiles := if dis then [] else svc.EnvFiles } := by
  rw [resolveServiceEnv, accumulateEnvFiles_ok fs svc.EnvFiles [] hg]

lemma resolveAllServiceEnvs_ok (fs : String → FileResult) (projEnv : Mapping)
    (dis : Bool) :
    ∀ L : AList ServiceConfig,
      (∀ kv ∈ L, GoodEnvFiles fs kv.2.EnvFiles) →
      resolveAllServiceEnvs fs projEnv dis L = .ok (L.map (fun kv => (kv.1,
        { kv.2 with
          Environment := overrideBy (specEnvFilesMerge fs kv.2.EnvFiles [])
            (resolveMWE kv.2.Environment (lookupA projEnv)),
          EnvFiles := if dis then [] else kv.2.EnvFiles }))) := by
  intro L
  induction L with
  | nil => intro _; rfl
  | cons kv t ih =>
    intro hg
    rw [resolveAllServiceEnvs,
      resolveServiceEnv_ok fs projEnv dis kv.2 (hg kv (List.mem_cons_self _ _)),
      ih (fun kv2 h2 => hg kv2 (List.mem_cons_of_mem _ h2))]
    rfl

lemma resolveAllServiceEnvs_err (fs : String → FileResult) (projEnv : Mapping)
    (dis : Bool) :
    ∀ (L : AList ServiceConfig) (e : String),
      resolveAllServiceEnvs fs projEnv dis L = .error e →
      ∃ kv ∈ L, ∃ f ∈ kv.2.EnvFiles,
        (fs f.Path = .missing ∧ f.Required = true ∧
          e = "env file " ++ f.Path ++ " not found") ∨
        (fs f.Path = .unreadable ∧ e = "failed to load " ++ f.Path) := by
  intro L
  induction L with
  | nil =>
    intro e h
    cases h
  | cons kv t ih =>
    intro e h
    rw [resolveAllServiceEnvs] at h
    rcases hr : resolveServiceEnv fs projEnv dis kv.2 with e2 | svc2
    · rw [hr] at h
      injection h with h
      rw [resolveServiceEnv] at hr
      rcases ha : accumulateEnvFiles fs kv.2.EnvFiles [] with e3 | m
      · rw [ha] at hr
        injection hr with hr
        rcases accumulateEnvFiles_err fs _ _ _ ha with ⟨f, hf, hcase⟩
        subst h
        rw [← hr]
        exact ⟨kv, List.mem_cons_self _ _, f, hf, hcase⟩
      · rw [ha] at hr
        cases hr
    · rw [hr] at h
      rcases h2 : resolveAllServiceEnvs fs projEnv dis t with e2 | l2
      · rw [h2] at h
        injection h with h
        subst h
        rcases ih e2 h2 with ⟨kv2, hm, hrest⟩
        exact ⟨kv2, List.mem_cons_of_mem _ hm, hrest⟩
      · rw [h2] at h
        cases h

lemma resolveAllServiceEnvs_not_good (fs : String → FileResult)
    (projEnv : Mapping) (dis : Bool) :
    ∀ L : AList ServiceConfig,
      ¬ (∀ kv ∈ L, GoodEnvFiles fs kv.2.EnvFiles) →
      ∃ e, resolveAllServiceEnvs fs projEnv dis L = .error e := by
  intro L
  induction L with
  | nil =>
    intro hg
    exact absurd (fun kv hkv => absurd hkv (List.not_mem_nil kv)) hg
  | cons kv t ih =>
    intro hg
    rw [resolveAllServiceEnvs]
    by_cases hk : GoodEnvFiles fs kv.2.EnvFiles
    · rw [resolveServiceEnv_ok fs projEnv dis kv.2 hk]
      have ht : ¬ (∀ kv2 ∈ t, GoodEnvFiles fs kv2.2.EnvFiles) := by
        intro hrest
        apply hg
        intro kv2 h2
        rcases List.mem_cons.mp h2 with rfl | h3
        · exact hk
        · exact hrest kv2 h3
      rcases ih ht with ⟨e, he⟩
      rw [he]
      exact ⟨e, rfl⟩
    · rcases accumulateEnvFiles_not_good fs kv.2.EnvFiles [] hk with ⟨e, he⟩
      rw [resolveServiceEnv, he]
      exact ⟨e, rfl⟩

/-! ## Claim C8 -/

/-- C8: `WithServicesEnvironmentResolved` fails exactly when some
enabled service lists an env file that is missing while required, or
present but unreadable/unparseable — and the error names the offending
file; on success every service's environment is the last-writer-wins
merge of its parsed env files in list order, overridden by the service's
own declared environment, and with `discardEnvFiles` the env-file list
is cleared.  (File reading and dotenv parsing are modelled from the
spec by the `fs` outcome map.) -/
lemma envResolved_char (p : Project)
    (fs : String → FileResult) (discardEnvFiles : Bool) :
    ((∃ q, p.WithServicesEnvironmentResolved fs discardEnvFiles = .ok q) ↔
      ∀ kv ∈ p.Services, GoodEnvFiles fs kv.2.EnvFiles) ∧
    (∀ q, p.WithServicesEnvironmentResolved fs discardEnvFiles = .ok q →
      q = { p with
        Services := p.Services.map (fun kv => (kv.1,
          { kv.2 with
            Environment := overrideBy (specEnvFilesMerge fs kv.2.EnvFiles [])
              (resolveMWE kv.2.Environment (lookupA p.Environment)),
            EnvFiles := if discardEnvFiles then [] else kv.2.EnvFiles })) }) ∧
    (∀ e, p.WithServicesEnvironmentResolved fs discardEnvFiles = .error e →
      ∃ kv ∈ p.Services, ∃ f ∈ kv.2.EnvFiles,
        (fs f.Path = .missing ∧ f.Required = true ∧
          e = "env file " ++ f.Path ++ " not found") ∨
        (fs f.Path = .unreadable ∧ e = "failed to load " ++ f.Path)) := by
  refine ⟨⟨?_, ?_⟩, ?_, ?_⟩
  · rintro ⟨q, hq⟩
    by_cases hg : ∀ kv ∈ p.Services, GoodEnvFiles fs kv.2.EnvFiles
    · exact hg
    · exfalso
      rcases resolveAllServiceEnvs_not_good fs p.Environment discardEnvFiles
        p.Services hg with ⟨e, he⟩
      rw [Project.WithServicesEnvironmentResolved] at hq
      simp only [Project.deepCopy_eq] at hq
      rw [he] at hq
      cases hq
  · intro hg
    rw [Project.WithServicesEnvironmentResolved]
    simp only [Project.deepCopy_eq]
    rw [resolveAllServiceEnvs_ok fs p.Environment discardEnvFiles p.Services hg]
    exact ⟨_, rfl⟩
  · intro q hq
    by_cases hg : ∀ kv ∈ p.Services, GoodEnvFiles fs kv.2.EnvFiles
    · rw [Project.WithServicesEnvironmentResolved] at hq
      simp only [Project.deepCopy_eq] at hq
      rw [resolveAllServiceEnvs_ok fs p.Environment discardEnvFiles
        p.Services hg] at hq
      injection hq with hq
      exact hq.symm
    · exfalso
      rcases resolveAllServiceEnvs_not_good fs p.Environment discardEnvFiles
        p.Services hg with ⟨e, he⟩
      rw [Project.WithServicesEnvironmentResolved] at hq
      simp only [Project.deepCopy_eq] at hq
      rw [he] at hq
      cases hq
  · intro e he
    rw [Project.WithServicesEnvironmentResolved] at he
    simp only [Project.deepCopy_eq] at he
    rcases hr : resolveAllServiceEnvs fs p.Environment discardEnvFiles
        p.Services with e2 | l2
    · rw [hr] at he
      injection he with he
      subst he
      exact resolveAllServiceEnvs_err fs p.Environment discardEnvFiles
        p.Services e2 hr
    · rw [hr] at he
      cases he

/-- C8: `WithServicesEnvironmentResolved` fails exactly when some
enabled service lists an env file that is missing while required, or
present but unreadable/unparseable — and the error names the offending
file; on success every service's environment is the last-writer-wins
merge of its parsed env files in list order, overridden by the service's
own declared (project-resolved) environment, and with `discardEnvFiles`
set the env-file list is cleared.  File reading and dotenv parsing are
modelled from the spec by the `fs` outcome map. -/
theorem C8_withServicesEnvironmentResolved (p : Project)
    (fs : String → FileResult) (discardEnvFiles : Bool) :
    ((∃ q, p.WithServicesEnvironmentResolved fs discardEnvFiles = .ok q) ↔
      ∀ kv ∈ p.Services, GoodEnvFiles fs kv.2.EnvFiles) ∧
    (∀ q, p.WithServicesEnvironmentResolved fs discardEnvFiles = .ok q →
      q = { p with
        Services := p.Services.map (fun kv => (kv.1,
          { kv.2 with
            Environment := overrideBy (specEnvFilesMerge fs kv.2.EnvFiles [])
              (resolveMWE kv.2.Environment (lookupA p.Environment)),
            EnvFiles := if discardEnvFiles then [] else kv.2.EnvFiles })) }) ∧
    (∀ e, p.WithServicesEnvironmentResolved fs discardEnvFiles = .error e →
      ∃ kv ∈ p.Services, ∃ f ∈ kv.2.EnvFiles,
        (fs f.Path = .missing ∧ f.Required = true ∧
          e = "env file " ++ f.Path ++ " not found") ∨
        (fs f.Path = .unreadable ∧ e = "failed to load " ++ f.Path)) :=
  envResolved_char p fs discardEnvFiles

/-! ## Claim C3: the enabled/disabled partition invariant -/

/-- No service name is at once enabled and disabled. -/
def KeysDisjoint (q : Project) : Prop :=
  ∀ x, hasKeyA q.Services x = true → hasKeyA q.DisabledServices x = false

/-- Two projects mention exactly the same service names across their
enabled and disabled maps. -/
def SameKeyUnion (p q : Project) : Prop :=
  ∀ x, (hasKeyA q.Services x = true ∨ hasKeyA q.DisabledServices x = true) ↔
       (hasKeyA p.Services x = true ∨ hasKeyA p.DisabledServices x = true)

lemma hasKeyA_allServices (p : Project) (hd : NodupKeys p.DisabledServices)
    (x : String) :
    hasKeyA p.AllServices x = true ↔
      (hasKeyA p.Services x = true ∨ hasKeyA p.DisabledServices x = true) := by
  rw [hasKeyA, allServices_lookup p hd x]
  rcases h1 : lookupA p.DisabledServices x with _ | v
  · simp [orO, hasKeyA, h1]
  · simp [orO, hasKeyA, h1]

lemma withProfiles_inv (p : Project) (hn : NodupKeys p.Services)
    (hd : NodupKeys p.DisabledServices) (hdisj : KeysDisjoint p)
    (profiles : List String) :
    KeysDisjoint (p.WithProfiles profiles) ∧
    SameKeyUnion p (p.WithProfiles profiles) := by
  by_cases hw : profiles.contains "*" = true
  · have hq : p.WithProfiles profiles = p := by
      rw [Project.WithProfiles]
      simp only [Project.deepCopy_eq]
      rw [if_pos hw]
    rw [hq]
    exact ⟨hdisj, fun x => Iff.rfl⟩
  · have hall := allServices_nodup p hn
    have hq : p.WithProfiles profiles =
        { p with
          Services := p.AllServices.filter (fun kv => kv.2.HasProfile profiles),
          DisabledServices :=
            p.AllServices.filter (fun kv => ¬ kv.2.HasProfile profiles),
          Profiles := profiles } := by
      rw [Project.WithProfiles]
      simp only [Project.deepCopy_eq]
      rw [if_neg hw]
    rw [hq]
    constructor
    · intro x hx
      rcases hl : lookupA p.AllServices x with _ | s
      · exfalso
        simp [hasKeyA, lookupA_filter hall, hl] at hx
      · by_cases hp : s.HasProfile profiles = true
        · simp [hasKeyA, lookupA_filter hall, hl, hp]
        · exfalso
          simp [hasKeyA, lookupA_filter hall, hl, hp] at hx
    · intro x
      rw [show (hasKeyA p.Services x = true ∨ hasKeyA p.DisabledServices x = true) ↔ hasKeyA p.AllServices x = true from (hasKeyA_allServices p hd x).symm]
      rcases hl : lookupA p.AllServices x with _ | s
      · simp [hasKeyA, lookupA_filter hall, hl]
      · by_cases hp : s.HasProfile profiles = true
        · simp [hasKeyA, lookupA_filter hall, hl, hp]
        · simp [hasKeyA, lookupA_filter hall, hl, hp]

lemma hasKeyA_map_fst {α β : Type} (l : AList α) (g : String × α → String × β)
    (hg : ∀ kv, (g kv).1 = kv.1) (k : String) :
    hasKeyA (l.map g) k = hasKeyA l k := by
  induction l with
  | nil => rfl
  | cons kv t ih =>
    simp only [List.map_cons, hasKeyA, lookupA, hg kv]
    by_cases he : kv.1 = k
    · simp [he]
    · simp only [if_neg he]
      exact ih

lemma envResolved_keys (p : Project) (fs : String → FileResult)
    (dis : Bool) (q : Project)
    (h : p.WithServicesEnvironmentResolved fs dis = .ok q) :
    (∀ x, hasKeyA q.Services x = hasKeyA p.Services x) ∧
    q.DisabledServices = p.DisabledServices := by
  have hq := (envResolved_char p fs dis).2.1 q h
  subst hq
  refine ⟨fun x => ?_, rfl⟩
  exact hasKeyA_map_fst p.Services
    (fun kv => (kv.1, { kv.2 with
      Environment := overrideBy (specEnvFilesMerge fs kv.2.EnvFiles [])
        (resolveMWE kv.2.Environment (lookupA p.Environment)),
      EnvFiles := if dis then [] else kv.2.EnvFiles })) (fun kv => rfl) x

lemma envResolved_inv (p1 : Project) (fs : String → FileResult) (dis : Bool)
    (q : Project) (h : p1.WithServicesEnvironmentResolved fs dis = .ok q)
    (hdisj : KeysDisjoint p1) : KeysDisjoint q ∧ SameKeyUnion p1 q := by
  obtain ⟨hk, hD⟩ := envResolved_keys p1 fs dis q h
  constructor
  · intro x hx
    rw [hk x] at hx
    rw [hD]
    exact hdisj x hx
  · intro x
    rw [hk x, hD]

lemma withServicesEnabled_inv (p : Project) (hn : NodupKeys p.Services)
    (hd : NodupKeys p.DisabledServices) (hdisj : KeysDisjoint p)
    (fs : String → FileResult) (names : List String) (q : Project)
    (h : p.WithServicesEnabled fs names = .ok q) :
    KeysDisjoint q ∧ SameKeyUnion p q := by
  rw [Project.WithServicesEnabled] at h
  simp only [Project.deepCopy_eq] at h
  by_cases hne : names.isEmpty = true
  · rw [if_pos hne] at h
    injection h with h
    subst h
    exact ⟨hdisj, fun x => Iff.rfl⟩
  · rw [if_neg hne] at h
    obtain ⟨hd2, hu2⟩ :=
      envResolved_inv _ fs true q h ((withProfiles_inv p hn hd hdisj _).1)
    exact ⟨hd2, fun x => (hu2 x).trans ((withProfiles_inv p hn hd hdisj _).2 x)⟩

lemma withServicesDisabled_inv (p : Project) (hn : NodupKeys p.Services)
    (hdisj : KeysDisjoint p) (names : List String) :
    KeysDisjoint (p.WithServicesDisabled names) ∧
    SameKeyUnion p (p.WithServicesDisabled names) := by
  have hq : p.WithServicesDisabled names =
      if names.isEmpty then p else names.foldl disableOne p := by
    rw [Project.WithServicesDisabled]
    simp only [Project.deepCopy_eq]
  rw [hq]
  by_cases hne : names.isEmpty = true
  · rw [if_pos hne]
    exact ⟨hdisj, fun x => Iff.rfl⟩
  · rw [if_neg hne]
    have hserv := foldl_disableOne_services names p hn
    have hdisk := foldl_disableOne_disabled_hasKey names p hn
    constructor
    · intro x hx
      have hx2 : x ∉ names ∧ hasKeyA p.Services x = true := by
        rw [hasKeyA, hserv x] at hx
        by_cases hm : x ∈ names
        · rw [if_pos hm] at hx
          simp at hx
        · rw [if_neg hm] at hx
          refine ⟨hm, ?_⟩
          rw [hasKeyA]
          rcases h2 : lookupA p.Services x with _ | s
          · rw [h2] at hx
            simp at hx
          · simp
      rw [Bool.eq_false_iff]
      intro hxd
      rcases (hdisk x).mp hxd with hD | ⟨hmem, _⟩
      · simp [hdisj x hx2.2] at hD
      · exact hx2.1 hmem
    · intro x
      rw [hasKeyA, hserv x, hdisk x]
      by_cases hm : x ∈ names
      · rw [if_pos hm]
        simp only [Option.isSome_none, Bool.false_eq_true, false_or]
        constructor
        · rintro (hD | ⟨_, hS⟩)
          · exact Or.inr hD
          · exact Or.inl hS
        · rintro (hS | hD)
          · exact Or.inr ⟨hm, hS⟩
          · exact Or.inl hD
      · rw [if_neg hm]
        rcases h2 : lookupA p.Services x with _ | s
        · simp only [Option.map_none', Option.isSome_none, Bool.false_eq_true,
            false_or]
          constructor
          · rintro (hD | ⟨hmem, _⟩)
            · exact Or.inr hD
            · exact absurd hmem hm
          · rintro (hS | hD)
            · rw [hasKeyA, h2] at hS
              simp at hS
            · exact Or.inl hD
        · simp only [Option.map_some', Option.isSome_some, true_or, true_iff]
          exact Or.inl (by rw [hasKeyA, h2]; rfl)

lemma withSelectedServices_inv (p : Project) (hwf : ProjWF p)
    (hdisj : KeysDisjoint p) (names : List String) (policy : DepPolicy)
    (q : Project) (h : p.WithSelectedServices names policy = .ok q) :
    KeysDisjoint q ∧ SameKeyUnion p q := by
  obtain ⟨hemp, hchar⟩ := withSelectedServices_char p names policy q hwf h
  by_cases hnil : names = []
  · rw [hemp hnil]
    exact ⟨hdisj, fun x => Iff.rfl⟩
  · obtain ⟨hS, hD, _⟩ := hchar hnil
    constructor
    · intro x hx
      have hr := (hS x).mp hx
      rw [Bool.eq_false_iff]
      intro hxd
      rcases (hD x).mp hxd with hpD | ⟨_, hnr⟩
      · simp [hdisj x (reaches_hasKey hr)] at hpD
      · exact hnr hr
    · intro x
      constructor
      · rintro (hq | hq)
        · exact Or.inl (reaches_hasKey ((hS x).mp hq))
        · rcases (hD x).mp hq with hpD | ⟨hpS, _⟩
          · exact Or.inr hpD
          · exact Or.inl hpS
      · rintro (hp | hp)
        · by_cases hr : Reaches p policy names x
          · exact Or.inl ((hS x).mpr hr)
          · exact Or.inr ((hD x).mpr (Or.inr ⟨hp, hr⟩))
        · exact Or.inr ((hD x).mpr (Or.inl hp))

/-- C3: from a well-formed project whose enabled and disabled service
maps have disjoint key sets, each of `WithProfiles`,
`WithServicesEnabled`, `WithServicesDisabled` and `WithSelectedServices`
again yields disjoint key sets and preserves the union of the two key
sets: no service name appears in both maps, and none is gained or
lost. -/
theorem C3_partition_invariant (p : Project) (hwf : ProjWF p)
    (hdisj : KeysDisjoint p) :
    (∀ profiles, KeysDisjoint (p.WithProfiles profiles) ∧
      SameKeyUnion p (p.WithProfiles profiles)) ∧
    (∀ fs names q, p.WithServicesEnabled fs names = .ok q →
      KeysDisjoint q ∧ SameKeyUnion p q) ∧
    (∀ names, KeysDisjoint (p.WithServicesDisabled names) ∧
      SameKeyUnion p (p.WithServicesDisabled names)) ∧
    (∀ names policy q, p.WithSelectedServices names policy = .ok q →
      KeysDisjoint q ∧ SameKeyUnion p q) :=
  ⟨fun profiles => withProfiles_inv p hwf.1 hwf.2.1 hdisj profiles,
   fun fs names q h => withServicesEnabled_inv p hwf.1 hwf.2.1 hdisj fs names q h,
   fun names => withServicesDisabled_inv p hwf.1 hdisj names,
   fun names policy q h => withSelectedServices_inv p hwf hdisj names policy q h⟩

/-! ## Claim C9: image digest resolution -/

lemma splitFirst_join (sep : Char) :
    ∀ cs pr, splitFirst sep cs = some pr → pr.1 ++ sep :: pr.2 = cs := by
  intro cs
  induction cs with
  | nil =>
    intro pr h
    simp [splitFirst] at h
  | cons c t ih =>
    intro pr h
    rw [splitFirst] at h
    by_cases he : c = sep
    · rw [if_pos he] at h
      injection h with h
      subst h
      simp [he]
    · rw [if_neg he] at h
      rcases h2 : splitFirst sep t with _ | pr2
      · rw [h2] at h
        cases h
      · rw [h2] at h
        simp only [Option.map_some'] at h
        injection h with h
        subst h
        simp only [List.cons_append]
        rw [ih pr2 h2]

lemma parseDockerRef_roundtrip (s : String) (named : NamedRef)
    (h : parseDockerRef s = .ok named) : refString named = s := by
  rw [parseDockerRef] at h
  split at h
  · cases h
  · split at h
    · injection h with h
      subst h
      rfl
    · rename_i pr hsplit
      injection h with h
      subst h
      rw [refString]
      apply String.ext
      simp only [String.data_append]
      have hj := splitFirst_join '@' s.data pr hsplit
      simp only [List.append_assoc]
      simpa using hj

lemma orO_orO_some {e : String} (a : Option String) (b : Option String) :
    orO (orO a (some e)) b = orO a (some e) := by
  cases a <;> rfl

lemma imagesBody_foldl (resolver : NamedRef → Except String String) :
    ∀ (l : AList ServiceConfig) (acc : AList ServiceConfig × Option String),
      l.foldl (imagesBody resolver) acc =
        (acc.1 ++ l.map (imageStep resolver),
         orO acc.2 (l.filterMap (imageErr resolver)).head?) := by
  intro l
  induction l with
  | nil =>
    intro acc
    simp only [List.foldl_nil, List.map_nil, List.append_nil, List.filterMap_nil,
      List.head?_nil]
    cases acc with
    | mk a b => cases b <;> rfl
  | cons kv t ih =>
    intro acc
    rw [List.foldl_cons]
    by_cases he : kv.2.Image = ""
    · have hstep : imageStep resolver kv = kv := by
        rw [imageStep, if_pos he]
      have herr : imageErr resolver kv = none := by
        rw [imageErr, if_pos he]
      have hbody : imagesBody resolver acc kv = (acc.1 ++ [kv], acc.2) := by
        rw [imagesBody, if_pos he]
      rw [hbody, ih, List.map_cons, hstep, List.filterMap_cons, herr]
      simp [List.append_assoc]
    · rcases hr : resolveImageOne resolver kv.2 with e | svc2
      · have hstep : imageStep resolver kv = kv := by
          rw [imageStep, if_neg he, hr]
        have herr : imageErr resolver kv = some e := by
          rw [imageErr, if_neg he, hr]
        have hbody : imagesBody resolver acc kv =
            (acc.1 ++ [kv], orO acc.2 (some e)) := by
          rw [imagesBody, if_neg he, hr]
          cases acc.2 with
          | none => rfl
          | some e0 => rfl
        rw [hbody, ih, List.map_cons, hstep, List.filterMap_cons, herr]
        simp only [List.head?_cons, orO_orO_some]
        simp [List.append_assoc]
      · have hstep : imageStep resolver kv = (kv.1, svc2) := by
          rw [imageStep, if_neg he, hr]
        have herr : imageErr resolver kv = none := by
          rw [imageErr, if_neg he, hr]
        have hbody : imagesBody resolver acc kv =
            (acc.1 ++ [(kv.1, svc2)], acc.2) := by
          rw [imagesBody, if_neg he, hr]
        rw [hbody, ih, List.map_cons, hstep, List.filterMap_cons, herr]
        simp [List.append_assoc]

/-- C9 (amended): `WithImagesResolved` maps every service through its
worker outcome — an empty image is skipped, an already digest-qualified
reference is left untouched, any other non-empty reference is rewritten
to the canonical digest-qualified string obtained from the resolver, and
a service whose worker fails keeps its entry — and returns, together
with the first failing worker's error, the rewritten copy itself: the
partial successful rewrites are returned alongside the error, not
discarded (the original-is-the-fallback part of the claim fails, see the
counterexample).  Parsing is modelled from the spec. -/
theorem C9_withImagesResolved (p : Project)
    (resolver : NamedRef → Except String String) :
    ((p.WithImagesResolved resolver).1 =
        { p with Services := p.Services.map (imageStep resolver) } ∧
      (p.WithImagesResolved resolver).2 =
        (p.Services.filterMap (imageErr resolver)).head?) ∧
    (∀ kv : String × ServiceConfig,
      (kv.2.Image = "" → imageStep resolver kv = kv) ∧
      (∀ named, parseDockerRef kv.2.Image = .ok named →
        isCanonical named = true → imageStep resolver kv = kv) ∧
      (∀ named digest, parseDockerRef kv.2.Image = .ok named →
        isCanonical named = false → resolver named = .ok digest →
        imageStep resolver kv =
          (kv.1, { kv.2 with Image := named.base ++ "@" ++ digest })) ∧
      (∀ e, imageErr resolver kv = some e → imageStep resolver kv = kv)) := by
  constructor
  · have hfold := imagesBody_foldl resolver p.Services ([], none)
    constructor
    · rw [Project.WithImagesResolved]
      simp only [Project.deepCopy_eq]
      rw [hfold]
      rfl
    · rw [Project.WithImagesResolved]
      simp only [Project.deepCopy_eq]
      rw [hfold]
      rfl
  · intro kv
    refine ⟨fun he => by rw [imageStep, if_pos he], ?_, ?_, ?_⟩
    · intro named hparse hcan
      have he : ¬ kv.2.Image = "" := by
        intro he0
        rw [he0] at hparse
        exact Except.noConfusion hparse
      have hres : resolveImageOne resolver kv.2 =
          .ok { kv.2 with Image := refString named } := by
        rw [resolveImageOne, hparse]
        simp only [if_pos hcan]
      rw [imageStep, if_neg he, hres, parseDockerRef_roundtrip _ _ hparse]
    · intro named digest hparse hcan hresv
      have he : ¬ kv.2.Image = "" := by
        intro he0
        rw [he0] at hparse
        exact Except.noConfusion hparse
      have hres : resolveImageOne resolver kv.2 =
          .ok { kv.2 with Image := refString ⟨named.base, some digest⟩ } := by
        rw [resolveImageOne, hparse]
        simp only [hcan, Bool.false_eq_true, if_false, hresv]
      rw [imageStep, if_neg he, hres]
      rfl
    · intro e herr
      rw [imageErr] at herr
      by_cases he : kv.2.Image = ""
      · rw [if_pos he] at herr
        cases herr
      · rw [if_neg he] at herr
        rcases hr : resolveImageOne resolver kv.2 with e2 | svc2
        · rw [imageStep, if_neg he, hr]
        · rw [hr] at herr
          simp at herr

/-! ## Claim C10: relative path resolution -/

/-- C10 (amended): for every non-empty path `RelativePath` is defined:
a path beginning with a tilde is expanded by joining its remainder under
the home directory (then anchored if the result is not absolute), an
already-absolute path is returned unchanged, and every other path is
joined under the project's working directory.  On the empty string the
Go code indexes `path[0]` unconditionally and faults; the model returns
`none` there, so the includes-the-empty-string totality part of the
claim fails (see the counterexample). -/
theorem C10_relativePath (p : Project) (home path : String) (c : Char)
    (rest : List Char) (hp : path.data = c :: rest) :
    (c = '~' →
      p.RelativePath home path =
        some (if isAbs (filepathJoin home (String.mk rest)) then
                filepathJoin home (String.mk rest)
              else filepathJoin p.WorkingDir (filepathJoin home (String.mk rest)))) ∧
    (c ≠ '~' → isAbs path = true → p.RelativePath home path = some path) ∧
    (c ≠ '~' → isAbs path = false →
      p.RelativePath home path = some (filepathJoin p.WorkingDir path)) := by
  have h0 : p.RelativePath home path =
      (let path1 := if c = '~' then filepathJoin home (String.mk rest) else path
       if isAbs path1 then some path1 else some (filepathJoin p.WorkingDir path1)) := by
    rw [Project.RelativePath, hp]
  refine ⟨?_, ?_, ?_⟩
  · intro hc
    rw [h0]
    simp only [if_pos hc]
    by_cases ha : isAbs (filepathJoin home (String.mk rest)) = true
    · simp [ha]
    · simp [ha]
  · intro hc habs
    rw [h0]
    simp only [if_neg hc, habs, if_true]
  · intro hc habs
    rw [h0]
    simp only [if_neg hc, habs, Bool.false_eq_true, if_false]

/-! ## Concrete examples, witnesses and counterexamples -/

/-- A service with one dependency, for the concrete examples. -/
def exDep : ServiceDependency := ⟨true, "service_started"⟩

def exSvcA : ServiceConfig := ⟨"a", [], [("b", exDep)], "img-a", [], []⟩

def exSvcB : ServiceConfig := ⟨"b", [], [], "img-b@sha256:bbb", [], []⟩

def exSvcD : ServiceConfig := ⟨"d", ["debug"], [], "", [], []⟩

/-- Two enabled services (`a` depends on `b`) and one disabled one. -/
def exP : Project := ⟨"p", "/w", [("a", exSvcA), ("b", exSvcB)], [], [("d", exSvcD)], []⟩

lemma exP_disj : KeysDisjoint exP := by
  intro x hx
  by_cases hd : ("d" : String) = x
  · subst hd
    exact absurd hx (by decide)
  · show (lookupA [("d", exSvcD)] x).isSome = false
    rw [lookupA, if_neg hd]
    rfl

lemma exP_walk : exP.ForEachService ["a"] .includeDependencies =
    .ok [("b", exSvcB), ("a", exSvcA)] := by
  simp [Project.ForEachService, withServices, walkItems, foundOf, notFoundOf,
    missingErr, keysA, depsFor, lookupA, hasKeyA, exP, exSvcA, exSvcB,
    ServiceConfig.deepCopy, Except.map]

/-- C2 witness: with a wildcard profile the example project is returned
unchanged. -/
theorem C2_witness : exP.WithProfiles ["*"] = exP :=
  (C2_withProfiles_partition exP ["*"] (by decide) (by decide)).1 (by decide)

/-- C2 counterexample: with the wildcard the previously disabled service
`d` stays disabled, while the claim promises every service (disabled
ones included) becomes enabled. -/
theorem C2_counterexample :
    hasKeyA (exP.WithProfiles ["*"]).DisabledServices "d" = true ∧
    hasKeyA (exP.WithProfiles ["*"]).Services "d" = false := by
  exact ⟨by decide, by decide⟩

/-- C3 witness at the example project and the `debug` profile. -/
theorem C3_witness :
    KeysDisjoint (exP.WithProfiles ["debug"]) ∧
    SameKeyUnion exP (exP.WithProfiles ["debug"]) :=
  (C3_partition_invariant exP (by decide) exP_disj).1 ["debug"]

/-- C4 witness: a request for the missing name `zzz` fails with the
`no such service` error naming an absent service. -/
theorem C4_witness :
    ∃ m, ("no such service: zzz" : String) = "no such service: " ++ m ∧
      hasKeyA exP.Services m = false :=
  (C4_forEachService_missing_names exP ["zzz"] .includeDependencies
    (by exact ⟨by decide, by decide, by decide⟩)).2 "no such service: zzz" rfl

/-- C5 witness: the successful walk of `a` visits each service once. -/
theorem C5_witness :
    (([("b", exSvcB), ("a", exSvcA)] : AList ServiceConfig).map Prod.fst).Nodup :=
  (C5_forEachService_visit_order exP ["a"] .includeDependencies
    [("b", exSvcB), ("a", exSvcA)] (by exact ⟨by decide, by decide, by decide⟩)
    exP_walk).1

/-- A self-dependent service: the smallest cyclic dependency graph. -/
def cycSvc : ServiceConfig := ⟨"a", [], [("a", ⟨false, ""⟩)], "", [], []⟩

def cycP : Project := ⟨"c", "/w", [("a", cycSvc)], [], [], []⟩

lemma cycP_walk : cycP.ForEachService ["a"] .includeDependencies =
    .ok [("a", cycSvc)] := by
  simp [Project.ForEachService, withServices, walkItems, foundOf, notFoundOf,
    missingErr, keysA, depsFor, lookupA, hasKeyA, cycP, cycSvc,
    ServiceConfig.deepCopy, Except.map]

/-- C5 counterexample: on the self-loop `a → a` the walk succeeds with
the single visit `[a]`, `a` is a transitive dependency of itself, yet it
is not visited strictly before itself — the dependencies-first ordering
of the claim fails on cyclic graphs. -/
theorem C5_counterexample :
    cycP.ForEachService ["a"] .includeDependencies = .ok [("a", cycSvc)] ∧
    Relation.TransGen (EdgeTo cycP .includeDependencies) "a" "a" ∧
    ¬ beforeL (([("a", cycSvc)] : AList ServiceConfig).map Prod.fst) "a" "a" := by
  refine ⟨cycP_walk, ?_, ?_⟩
  · exact Relation.TransGen.single
      ⟨cycSvc, rfl, ⟨("a", ⟨false, ""⟩), by decide, rfl⟩, by decide⟩
  · rintro ⟨i, j, hij, hi, hj⟩
    have hj1 : j < 1 := by
      by_contra hc
      push_neg at hc
      rw [List.get?_eq_none.mpr (by simpa using hc)] at hj
      cases hj
    omega

/-- C6 witness: the empty selection returns the project unchanged. -/
theorem C6_witness : (exP : Project) = exP :=
  (C6_withSelectedServices exP [] .includeDependencies exP
    (by exact ⟨by decide, by decide, by decide⟩) rfl).1 rfl

/-- C7 witness: disabling `a` removes it from the enabled services. -/
theorem C7_witness :
    hasKeyA (exP.WithServicesDisabled ["a"]).Services "a" = true ↔
      ("a" ∉ (["a"] : List String) ∧ hasKeyA exP.Services "a" = true) :=
  (C7_withServicesDisabled exP ["a"]
    (by exact ⟨by decide, by decide, by decide⟩)).1 "a"

/-- A service depending on the absent name `z`. -/
def zSvc : ServiceConfig := ⟨"a", [], [("z", ⟨true, ""⟩)], "", [], []⟩

def zP : Project := ⟨"zp", "/w", [("a", zSvc)], [], [], []⟩

/-- C7 counterexample: disabling the name `z`, which matches no enabled
service, is not a no-op: the surviving service `a` loses its `DependsOn`
edge to `z`. -/
theorem C7_counterexample :
    zP.WithServicesDisabled ["z"] ≠ zP ∧
    lookupA (zP.WithServicesDisabled ["z"]).Services "a" =
      some { zSvc with DependsOn := [] } := by
  exact ⟨by decide, by decide⟩

/-- Two services with plain (digest-free) images. -/
def imgSvcA : ServiceConfig := ⟨"a", [], [], "img-a", [], []⟩

def imgSvcB : ServiceConfig := ⟨"b", [], [], "img-b", [], []⟩

def imgP : Project := ⟨"i", "/w", [("a", imgSvcA), ("b", imgSvcB)], [], [], []⟩

/-- A resolver that digests `img-a` and fails on everything else. -/
def imgResolver (n : NamedRef) : Except String String :=
  if n.base = "img-a" then .ok "sha256:aaa" else .error "boom"

/-- C9 counterexample: the worker for `b` fails, the aggregate call
reports that error — and the returned project still contains the
successful rewrite of `a`, so the partial rewrites are returned rather
than discarded and the original project is not the fallback. -/
theorem C9_counterexample :
    (imgP.WithImagesResolved imgResolver).2 = some "boom" ∧
    lookupA (imgP.WithImagesResolved imgResolver).1.Services "a" =
      some { imgSvcA with Image := "img-a@sha256:aaa" } ∧
    lookupA imgP.Services "a" = some imgSvcA ∧
    imgSvcA.Image = "img-a" := by
  exact ⟨by decide, by decide, by decide, by decide⟩

/-- C10 witness: a plain relative path is joined under the working
directory. -/
theorem C10_witness :
    exP.RelativePath "/home/u" "rel" = some (filepathJoin exP.WorkingDir "rel") :=
  (C10_relativePath exP "/home/u" "rel" 'r' ['e', 'l'] rfl).2.2
    (by decide) (by decide)

/-- C10 counterexample: on the empty path the model returns `none`,
reflecting the unguarded `path[0]` index of the Go source — the
claim's totality on the empty string fails. -/
theorem C10_counterexample : exP.RelativePath "/home/u" "" = none := rfl

end Compose